import Mathlib

/-
  Verification development for the tarifa cross-sectional equity alpha toolkit.

  The Rust sources are shallowly embedded: `f64` values are modelled by the
  inductive `Fl α` below (an exact-arithmetic carrier `α` — `ℚ` for inputs,
  `ℝ` where the source takes square roots — plus the IEEE special values
  NaN, +∞, −∞).  Finite arithmetic is exact rather than rounded; every
  operation on the special values follows IEEE-754 semantics as used by Rust
  `f64` (with the one idealisation that the sign of zero is not tracked, so
  `q / 0` takes the sign of `q`, matching a `+0.0` denominator).
-/

set_option maxRecDepth 10000

namespace Tarifa

/-- Model of an `f64` value over an exact carrier `α`: a finite value, NaN,
positive infinity, or negative infinity. -/
inductive Fl (α : Type) where
  | fin (x : α)
  | nan
  | pinf
  | ninf
deriving DecidableEq

namespace Fl

variable {α : Type} [LinearOrderedField α]

/-- IEEE negation. -/
def neg : Fl α → Fl α
  | fin x => fin (-x)
  | nan => nan
  | pinf => ninf
  | ninf => pinf

/-- IEEE addition. -/
def add : Fl α → Fl α → Fl α
  | nan, _ => nan
  | fin a, fin b => fin (a + b)
  | fin _, pinf => pinf
  | fin _, ninf => ninf
  | fin _, nan => nan
  | pinf, fin _ => pinf
  | pinf, pinf => pinf
  | pinf, ninf => nan
  | pinf, nan => nan
  | ninf, fin _ => ninf
  | ninf, pinf => nan
  | ninf, ninf => ninf
  | ninf, nan => nan

/-- IEEE subtraction, `x - y = x + (-y)`. -/
def sub (x y : Fl α) : Fl α := add x (neg y)

/-- IEEE multiplication (`0 · ∞ = NaN`). -/
def mul : Fl α → Fl α → Fl α
  | nan, _ => nan
  | fin a, fin b => fin (a * b)
  | fin a, pinf => if a = 0 then nan else if 0 < a then pinf else ninf
  | fin a, ninf => if a = 0 then nan else if 0 < a then ninf else pinf
  | fin _, nan => nan
  | pinf, fin b => if b = 0 then nan else if 0 < b then pinf else ninf
  | pinf, pinf => pinf
  | pinf, ninf => ninf
  | pinf, nan => nan
  | ninf, fin b => if b = 0 then nan else if 0 < b then ninf else pinf
  | ninf, pinf => ninf
  | ninf, ninf => pinf
  | ninf, nan => nan

/-- IEEE division.  The sign of zero is not tracked, so a zero denominator
behaves like `+0.0`: the quotient takes the sign of the numerator. -/
def div : Fl α → Fl α → Fl α
  | nan, _ => nan
  | fin a, fin b =>
      if b = 0 then (if a = 0 then nan else if 0 < a then pinf else ninf)
      else fin (a / b)
  | fin _, pinf => fin 0
  | fin _, ninf => fin 0
  | fin _, nan => nan
  | pinf, fin b => if 0 ≤ b then pinf else ninf
  | pinf, pinf => nan
  | pinf, ninf => nan
  | pinf, nan => nan
  | ninf, fin b => if 0 ≤ b then ninf else pinf
  | ninf, pinf => nan
  | ninf, ninf => nan
  | ninf, nan => nan

/-- `x.powi(2)` as used by the sources: plain self-multiplication. -/
def sq (x : Fl α) : Fl α := mul x x

/-- Rust `f64::is_finite`. -/
def isFinite : Fl α → Bool
  | fin _ => true
  | _ => false

/-- Extract the finite value; only ever used behind an `isFinite` guard. -/
def toVal : Fl α → α
  | fin x => x
  | _ => 0

/-- `iter().sum::<f64>()`: a left fold of IEEE addition seeded with `0.0`. -/
def fsum (l : List (Fl α)) : Fl α := l.foldl add (fin 0)

@[simp] theorem add_nan (x : Fl α) : add x nan = nan := by cases x <;> rfl

@[simp] theorem nan_add (x : Fl α) : add nan x = nan := rfl

@[simp] theorem sub_nan (x : Fl α) : sub x nan = nan := by cases x <;> rfl

@[simp] theorem nan_sub (x : Fl α) : sub nan x = nan := rfl

@[simp] theorem nan_mul (x : Fl α) : mul nan x = nan := rfl

@[simp] theorem mul_nan (x : Fl α) : mul x nan = nan := by cases x <;> rfl

@[simp] theorem nan_div (x : Fl α) : div nan x = nan := rfl

@[simp] theorem sq_nan : sq (nan : Fl α) = nan := rfl

/-- Once a NaN enters a running IEEE sum it never leaves. -/
theorem foldl_add_nan (l : List (Fl α)) : l.foldl add nan = nan := by
  induction l with
  | nil => rfl
  | cons x xs ih => simpa [add] using ih

/-- A left IEEE sum over a list containing NaN is NaN, from any seed. -/
theorem foldl_add_nan_of_mem {l : List (Fl α)} (h : nan ∈ l) :
    ∀ acc, l.foldl add acc = nan := by
  induction l with
  | nil => cases h
  | cons x xs ih =>
      intro acc
      rcases List.mem_cons.mp h with h1 | h2
      · subst h1
        simpa using foldl_add_nan xs
      · exact ih h2 (add acc x)

/-- An IEEE sum over a list containing NaN is NaN. -/
theorem fsum_eq_nan_of_mem {l : List (Fl α)} (h : nan ∈ l) : fsum l = nan :=
  foldl_add_nan_of_mem h (fin 0)

/-- An IEEE sum of finite values is the exact sum. -/
theorem fsum_map_fin (l : List α) : fsum (l.map fin) = fin l.sum := by
  suffices h : ∀ a : α, (l.map fin).foldl add (fin a) = fin (a + l.sum) by
    simpa [fsum] using h 0
  induction l with
  | nil => intro a; simp
  | cons x xs ih =>
      intro a
      simpa [add, add_assoc] using ih (a + x)

end Fl

/-- The rational instantiation used for source values that never pass through
a square root. -/
abbrev F := Fl ℚ

/-- Componentwise cast `Fl ℚ → Fl ℝ`, used at the points where the source
calls `f64::sqrt`. -/
def toR : F → Fl ℝ
  | .fin q => .fin (q : ℝ)
  | .nan => .nan
  | .pinf => .pinf
  | .ninf => .ninf

/-- `f64::sqrt` on the real instantiation: NaN for negative arguments and
NaN/−∞, `+∞` for `+∞`. -/
noncomputable def sqrtR : Fl ℝ → Fl ℝ
  | .fin x => if x < 0 then .nan else .fin (Real.sqrt x)
  | .nan => .nan
  | .pinf => .pinf
  | .ninf => .nan

/-- Decides `variance.sqrt() > t` for a threshold `t > 0` without leaving ℚ:
for a finite variance `v`, `√v > t ↔ v > t²` (see `sqrtR_gt_iff`); the sqrt of
NaN, of −∞ and of a negative value is NaN, which compares false; `√+∞ = +∞`
compares true. -/
def sqrtGtB (variance : F) (t : ℚ) : Bool :=
  match variance with
  | .fin v => decide (t * t < v)
  | .pinf => true
  | _ => false

/-- Decides `variance.sqrt() > 0` the same way. -/
def sqrtGtZeroB (variance : F) : Bool :=
  match variance with
  | .fin v => decide (0 < v)
  | .pinf => true
  | _ => false

/-- Justification of `sqrtGtB`: over the reals, for `t ≥ 0`,
`t < √v ↔ t·t < v` whenever `0 ≤ v`, and `√v ≤ t` whenever `v < 0 ≤ t`
would have NaN semantics in IEEE anyway. -/
theorem sqrtR_gt_iff (v t : ℚ) (ht : 0 ≤ t) :
    (t : ℝ) < Real.sqrt (v : ℝ) ↔ t * t < v := by
  rw [Real.lt_sqrt (show (0 : ℝ) ≤ (t : ℝ) by exact_mod_cast ht)]
  rw [show ((t : ℝ) ^ 2) = ((t * t : ℚ) : ℝ) by push_cast; ring]
  exact_mod_cast Iff.rfl

/-- `values.iter().filter(|x| x.is_finite()).copied().collect()` — the
finite entries of a slice, in order. -/
def finiteVals (values : List F) : List ℚ :=
  values.filterMap (fun x => if x.isFinite then some x.toVal else none)

/-- Clamping a value into `[lb, ub]` the way the winsorization loop does. -/
def clipQ (lb ub v : ℚ) : ℚ :=
  if v < lb then lb else if ub < v then ub else v

/-! ## `tarifa-signals/src/value/book_to_price.rs` — winsorization -/

/-- Configuration for the book-to-price signal (`BookToPriceConfig`).
`winsorize_pct` is the winsorization fraction `p`. -/
structure BookToPriceConfig where
  winsorize : Bool
  winsorize_pct : ℚ

namespace BookToPrice

/-- `BookToPrice::winsorize` (book_to_price.rs:73-101).  Collects the finite
entries, sorts them ascending, reads the clipping bounds at indices
`floor(n·p)` and `min(ceil(n·(1−p)), n−1)`, and clips each finite entry
in place; non-finite entries pass through. -/
def winsorize (cfg : BookToPriceConfig) (values : List F) : List F :=
  if !cfg.winsorize || values.isEmpty then values
  else
    let sorted0 : List ℚ := finiteVals values
    if sorted0.isEmpty then values
    else
      let sorted := sorted0.insertionSort (fun a b => a ≤ b)
      let n := sorted.length
      let lower_idx : ℕ := (Int.floor ((n : ℚ) * cfg.winsorize_pct)).toNat
      let upper_idx : ℕ :=
        min (Int.ceil ((n : ℚ) * (1 - cfg.winsorize_pct))).toNat (n - 1)
      let lower_bound := sorted.getD lower_idx 0
      let upper_bound := sorted.getD upper_idx 0
      values.map (fun v =>
        if v.isFinite then
          if v.toVal < lower_bound then Fl.fin lower_bound
          else if upper_bound < v.toVal then Fl.fin upper_bound
          else v
        else v)

end BookToPrice

/-- Modelled from the spec wording of claim C1 only, for comparison with the
source's `winsorize`: identical except that the upper index pick is
`ceil(n·(1−p)) − 1`, clamped to `n − 1`. -/
def winsorizeSpecC1 (cfg : BookToPriceConfig) (values : List F) : List F :=
  if !cfg.winsorize || values.isEmpty then values
  else
    let sorted0 : List ℚ := finiteVals values
    if sorted0.isEmpty then values
    else
      let sorted := sorted0.insertionSort (fun a b => a ≤ b)
      let n := sorted.length
      let lower_idx : ℕ := (Int.floor ((n : ℚ) * cfg.winsorize_pct)).toNat
      let upper_idx : ℕ :=
        min (Int.ceil ((n : ℚ) * (1 - cfg.winsorize_pct)) - 1).toNat (n - 1)
      let lower_bound := sorted.getD lower_idx 0
      let upper_bound := sorted.getD upper_idx 0
      values.map (fun v =>
        if v.isFinite then
          if v.toVal < lower_bound then Fl.fin lower_bound
          else if upper_bound < v.toVal then Fl.fin upper_bound
          else v
        else v)

/-! ## `tarifa-eval/src/backtest.rs` -/

/-- `BacktestConfig` (backtest.rs:11-32).  Dates are modelled as integers;
`start_date`, `end_date`, `initial_capital` and the position-size fields are
carried but, as in the source, never read by the embedded operations. -/
structure BacktestConfig where
  start_date : ℤ
  end_date : ℤ
  rebalance_frequency : ℕ
  transaction_cost_bps : ℚ
  initial_capital : ℚ
  max_position_size : ℚ
  min_position_size : ℚ
  n_long : Option ℕ
  n_short : Option ℕ
  long_short : Bool

namespace Backtest

/-- `Backtest::construct_portfolio` (backtest.rs:270-320).  Enumerates the
scores, drops non-finite ones, sorts descending by score (stable, so ties
keep input order), then assigns `+1/n_long` to the top `n_long` and, for
long/short, `−1/n_short` to the bottom `n_short` (later assignment wins). -/
def construct_portfolio (cfg : BacktestConfig) (scores : List F) : List ℚ :=
  let n_assets := scores.length
  let positions : List ℚ := List.replicate n_assets 0
  let indexed_scores : List (ℕ × ℚ) :=
    scores.enum.filterMap
      (fun p => if p.2.isFinite then some (p.1, p.2.toVal) else none)
  if indexed_scores.isEmpty then positions
  else
    let sorted := indexed_scores.insertionSort (fun a b => b.2 ≤ a.2)
    if cfg.long_short then
      let n_long := cfg.n_long.getD (n_assets / 2)
      let n_short := cfg.n_short.getD (n_assets / 2)
      let long_weight : ℚ := if 0 < n_long then 1 / (n_long : ℚ) else 0
      let positions :=
        (sorted.take (min n_long sorted.length)).foldl
          (fun ps p => ps.set p.1 long_weight) positions
      let short_weight : ℚ := if 0 < n_short then -1 / (n_short : ℚ) else 0
      let start_idx := sorted.length - n_short
      (sorted.drop start_idx).foldl
        (fun ps p => ps.set p.1 short_weight) positions
    else
      let n_long := cfg.n_long.getD n_assets
      let weight : ℚ := if 0 < n_long then 1 / (n_long : ℚ) else 0
      (sorted.take (min n_long sorted.length)).foldl
        (fun ps p => ps.set p.1 weight) positions

/-- `Backtest::calculate_turnover` (backtest.rs:338-345): half the summed
absolute position changes over the zipped vectors. -/
def calculate_turnover (old_positions new_positions : List ℚ) : ℚ :=
  (List.zipWith (fun old new => |new - old|) old_positions new_positions).sum / 2

/-- `Backtest::calculate_portfolio_return` (backtest.rs:322-335).  Positions
are rationals because `construct_portfolio` only ever produces finite
weights, so the source's `pos.is_finite()` test is always true; non-finite
asset returns contribute 0. -/
def calculate_portfolio_return (positions : List ℚ) (returns : List F) : ℚ :=
  (List.zipWith
    (fun pos ret => if ret.isFinite then pos * ret.toVal else 0)
    positions returns).sum

/-- The loop state of `Backtest::run` (backtest.rs:166-267). -/
structure RunState where
  current_positions : List ℚ
  cum_ret : ℚ
  portfolio_returns : List ℚ
  cumulative_returns : List ℚ
  turnover_history : List ℚ
  total_transaction_costs : ℚ
  n_trades : ℕ

/-- One iteration of the `for i in 0..n_periods` loop of `Backtest::run`
(backtest.rs:184-223).  The IC-history push (lines 216-222) reads no loop
state and writes none that the other steps read; it is embedded separately
by `calculate_ic`. -/
def runStep (cfg : BacktestConfig) (signal_scores returns : List (List F))
    (s : RunState) (i : ℕ) : RunState :=
  let should_rebalance := i % cfg.rebalance_frequency == 0
  let s :=
    if should_rebalance then
      let new_positions := construct_portfolio cfg (signal_scores.getD i [])
      let s :=
        if !s.current_positions.isEmpty then
          let turnover := calculate_turnover s.current_positions new_positions
          { s with
            turnover_history := s.turnover_history ++ [turnover],
            total_transaction_costs :=
              s.total_transaction_costs + turnover * cfg.transaction_cost_bps / 10000,
            n_trades := s.n_trades + 1 }
        else s
      { s with current_positions := new_positions }
    else s
  let port_ret : ℚ :=
    if s.current_positions.isEmpty then 0
    else calculate_portfolio_return s.current_positions (returns.getD i [])
  let cum_ret := (1 + s.cum_ret) * (1 + port_ret) - 1
  { s with
    portfolio_returns := s.portfolio_returns ++ [port_ret],
    cum_ret := cum_ret,
    cumulative_returns := s.cumulative_returns ++ [cum_ret] }

/-- The rebalance/return/compounding loop of `Backtest::run`:
`n_periods = min` of the three input lengths, loop state threaded by
`runStep`. -/
def runCore (cfg : BacktestConfig) (signal_scores returns : List (List F))
    (dates_len : ℕ) : RunState :=
  let n_periods := min (min signal_scores.length returns.length) dates_len
  (List.range n_periods).foldl (runStep cfg signal_scores returns)
    ⟨[], 0, [], [], [], 0, 0⟩

/-- The body of the loop in `BacktestResult::calculate_max_drawdown`
(backtest.rs:107-115), on the state `(max_dd, peak)`. -/
def mddStep (st : ℚ × ℚ) (cum_ret : ℚ) : ℚ × ℚ :=
  let peak := if st.2 < cum_ret then cum_ret else st.2
  let dd := (peak - cum_ret) / (1 + peak)
  (if st.1 < dd then dd else st.1, peak)

/-- `BacktestResult::calculate_max_drawdown` (backtest.rs:103-118): running
peak seeded at 0, drawdown `(peak − cum)/(1 + peak)`, output the largest
drawdown, never negative. -/
def calculate_max_drawdown (cumulative_returns : List ℚ) : ℚ :=
  (cumulative_returns.foldl mddStep (0, 0)).1

end Backtest

/-! ## `tarifa-traits/src/stats.rs` -/

/-- `StandardizeResult` (stats.rs:14-21).  The mean of the finite entries is
exact, hence a rational `F`; the standard deviation passes through
`f64::sqrt` and lives in `Fl ℝ`. -/
structure StandardizeResult where
  mean : F
  std : Fl ℝ
  applied : Bool

/-- The `mean` of stats.rs:86 over the finite entries. -/
def sampleMeanQ (l : List ℚ) : ℚ := l.sum / l.length

/-- The sample variance of stats.rs:89-97 over the finite entries: Bessel
(`n − 1`) when `n > 1`, else 0. -/
def sampleVarQ (l : List ℚ) : ℚ :=
  if 1 < l.length then
    (l.map (fun x => (x - sampleMeanQ l) ^ 2)).sum / ((l.length : ℚ) - 1)
  else 0

theorem sampleVarQ_nonneg (l : List ℚ) : 0 ≤ sampleVarQ l := by
  unfold sampleVarQ
  split
  · apply div_nonneg
    · apply List.sum_nonneg
      intro x hx
      rcases List.mem_map.mp hx with ⟨y, _, rfl⟩
      positivity
    · rename_i h
      have : (1 : ℚ) < l.length := by exact_mod_cast h
      linarith
  · exact le_refl 0

/-- `standardize` (stats.rs:59-108).  Statistics are computed over the
finite entries only; the original entries (including NaN/±∞) are then
mapped through `(x − mean)/std`.  The source's `std > MIN_STD_THRESHOLD`
test is decided on the variance via `sqrtGtB` (justified by
`sqrtR_gt_iff`). -/
noncomputable def standardize (values : List F) :
    List (Fl ℝ) × StandardizeResult :=
  if values.isEmpty then ([], ⟨Fl.nan, Fl.nan, false⟩)
  else
    let finite_values : List ℚ := finiteVals values
    if finite_values.isEmpty then
      (List.replicate values.length Fl.nan, ⟨Fl.nan, Fl.nan, false⟩)
    else
      let mean : ℚ := sampleMeanQ finite_values
      let variance : ℚ := sampleVarQ finite_values
      let std : Fl ℝ := sqrtR (Fl.fin (variance : ℝ))
      let applied := sqrtGtB (Fl.fin variance) (1 / 10 ^ 10)
      let standardized : List (Fl ℝ) :=
        if applied then
          values.map (fun x => Fl.div (Fl.sub (toR x) (Fl.fin (mean : ℝ))) std)
        else List.replicate values.length (Fl.fin 0)
      (standardized, ⟨Fl.fin mean, std, applied⟩)

/-! ## `tarifa-signals/src/momentum/short_term.rs` -/

/-- `ShortTermMomentumConfig` (short_term.rs:12-15). -/
structure ShortTermMomentumConfig where
  lookback_days : ℕ

/-- One panel row as consumed by `ShortTermMomentum::score`: symbol, date
(integer day), and the `close` cell (None = null in the frame, dropped by
`flatten()`; NaN is a present value and is kept). -/
structure PanelRow where
  symbol : String
  date : ℤ
  close : Option F

/-- Helper for `uniqueKeepFirst`: skip symbols already seen. -/
def uniqueKeepFirstAux : List String → List String → List String
  | [], _ => []
  | s :: rest, seen =>
      if s ∈ seen then uniqueKeepFirstAux rest seen
      else s :: uniqueKeepFirstAux rest (s :: seen)

/-- Unique symbols in first-appearance order (the embedding's fixed order
for polars `unique()`, whose order the source never relies on). -/
def uniqueKeepFirst (l : List String) : List String :=
  uniqueKeepFirstAux l []

namespace ShortTermMomentum

/-- The per-symbol loop of `ShortTermMomentum::score` (short_term.rs:110-140):
filter the panel to `date ≤ D`, then for each symbol sort its rows by date,
flatten the closes, skip symbols with fewer than `lookback_days + 1` prices,
and compute `close[last]/close[last − L] − 1` in IEEE arithmetic. -/
def computeMomentums (cfg : ShortTermMomentumConfig) (rows : List PanelRow)
    (date : ℤ) : List (String × F) :=
  let filtered := rows.filter (fun r => r.date ≤ date)
  (uniqueKeepFirst (filtered.map (fun r => r.symbol))).filterMap (fun symbol =>
    let symbol_data := filtered.filter (fun r => r.symbol = symbol)
    let sortedRows := symbol_data.insertionSort (fun a b => a.date ≤ b.date)
    let prices : List F := sortedRows.filterMap (fun r => r.close)
    if prices.length < cfg.lookback_days + 1 then none
    else
      let n := prices.length
      let current_price := prices.getD (n - 1) Fl.nan
      let past_price := prices.getD (n - 1 - cfg.lookback_days) Fl.nan
      some (symbol, Fl.sub (Fl.div current_price past_price) (Fl.fin 1)))

/-- `ShortTermMomentum::score` (short_term.rs:66-171) after the
column-presence check (the embedding's row type fixes the schema): date
filter, per-symbol momentum loop, then the inline cross-sectional z-score
over all collected raw scores — the raw scores are *not* filtered for
finiteness before the mean/variance. -/
noncomputable def score (cfg : ShortTermMomentumConfig) (rows : List PanelRow)
    (date : ℤ) : Except String (List (String × Fl ℝ)) :=
  let filtered := rows.filter (fun r => r.date ≤ date)
  if filtered.isEmpty then Except.error "InsufficientData: no data available up to date"
  else
    let result := computeMomentums cfg rows date
    if result.isEmpty then
      Except.error "InsufficientData: no symbols have enough days of data"
    else
      let result_scores := result.map Prod.snd
      let n := result_scores.length
      let mean := Fl.div (Fl.fsum result_scores) (Fl.fin (n : ℚ))
      let variance :=
        Fl.div (Fl.fsum (result_scores.map (fun x => Fl.sq (Fl.sub x mean))))
          (Fl.fin ((max (n - 1) 1 : ℕ) : ℚ))
      let standardized : List (Fl ℝ) :=
        if sqrtGtB variance (1 / 10 ^ 10) then
          result_scores.map
            (fun x => Fl.div (Fl.sub (toR x) (toR mean)) (sqrtR (toR variance)))
        else List.replicate n (Fl.fin 0)
      Except.ok ((result.map Prod.fst).zip standardized)

end ShortTermMomentum

/-! ## `tarifa-eval/src/ic.rs` -/

/-- `f64::EPSILON`, the tie threshold used by `compute_ranks`. -/
def EPSILON : ℚ := 1 / 2 ^ 52

/-- The tie-grouping loop of `compute_ranks` (ic.rs:123-137) over the
sorted `(original index, value)` pairs: each maximal run of values within
`EPSILON` of the run's first value receives the average 0-based rank
`(i + j − 1)/2` for run positions `[i, j)`.  The fuel argument makes the
recursion structural; `compute_ranks` passes the list length, which the
recursion never exhausts. -/
def assignRanks : ℕ → List (ℕ × ℚ) → ℕ → List (ℕ × ℚ)
  | _, [], _ => []
  | 0, _ :: _, _ => []
  | fuel + 1, p :: rest, i =>
      let grp := rest.takeWhile (fun q => decide (|q.2 - p.2| < EPSILON))
      let j := i + (grp.length + 1)
      let avg_rank : ℚ := ((i + j - 1 : ℕ) : ℚ) / 2
      (p :: grp).map (fun q => (q.1, avg_rank)) ++
        assignRanks fuel (rest.drop grp.length) j

/-- `compute_ranks` (ic.rs:113-140): stable ascending sort of the
enumerated values, tie-grouped average ranks, written back into a vector by
original index. -/
def compute_ranks (values : List ℚ) : List ℚ :=
  let n := values.length
  let indexed := values.enum
  let sorted := indexed.insertionSort (fun a b => a.2 ≤ b.2)
  (assignRanks sorted.length sorted 0).foldl (fun ranks p => ranks.set p.1 p.2)
    (List.replicate n 0)

/-- The `mean_x` of `spearman_correlation` (ic.rs:151). -/
def spearmanMeanX (ranks_x : List ℚ) : ℚ := ranks_x.sum / ranks_x.length

/-- The `mean_y` of `spearman_correlation` (ic.rs:152); the divisor is
`n = ranks_x.len()` exactly as in the source. -/
def spearmanMeanY (ranks_x ranks_y : List ℚ) : ℚ := ranks_y.sum / ranks_x.length

/-- The `cov` accumulator of the loop at ic.rs:159-165, which runs over
indices `0..ranks_x.len()` of the two equal-length vectors — a zip. -/
def spearmanCov (ranks_x ranks_y : List ℚ) : ℚ :=
  (List.zipWith
    (fun x y => (x - spearmanMeanX ranks_x) * (y - spearmanMeanY ranks_x ranks_y))
    ranks_x ranks_y).sum

/-- The `var_x` accumulator of the same loop. -/
def spearmanVarX (ranks_x ranks_y : List ℚ) : ℚ :=
  (List.zipWith (fun x _ => (x - spearmanMeanX ranks_x) ^ 2) ranks_x ranks_y).sum

/-- The `var_y` accumulator of the same loop. -/
def spearmanVarY (ranks_x ranks_y : List ℚ) : ℚ :=
  (List.zipWith (fun _ y => (y - spearmanMeanY ranks_x ranks_y) ^ 2)
    ranks_x ranks_y).sum

/-- `spearman_correlation` (ic.rs:143-172): Pearson correlation of the two
rank vectors; NaN when `n < 2` or either variance is zero. -/
noncomputable def spearman_correlation (ranks_x ranks_y : List ℚ) : Fl ℝ :=
  if ranks_x.length < 2 then Fl.nan
  else
    if spearmanVarX ranks_x ranks_y = 0 ∨ spearmanVarY ranks_x ranks_y = 0 then
      Fl.nan
    else
      Fl.fin ((spearmanCov ranks_x ranks_y : ℝ) /
        (Real.sqrt (spearmanVarX ranks_x ranks_y : ℝ) *
          Real.sqrt (spearmanVarY ranks_x ranks_y : ℝ)))

/-- `calculate_ic` (ic.rs:35-70): NaN on length mismatch or fewer than 2
entries; drop pairs with a non-finite member; NaN if fewer than 2 valid
pairs; otherwise the Spearman correlation of the two rank vectors. -/
noncomputable def calculate_ic (signal_scores forward_returns : List F) : Fl ℝ :=
  if signal_scores.length ≠ forward_returns.length then Fl.nan
  else if signal_scores.length < 2 then Fl.nan
  else
    let pairs : List (ℚ × ℚ) :=
      (signal_scores.zip forward_returns).filterMap
        (fun p => if p.1.isFinite && p.2.isFinite then some (p.1.toVal, p.2.toVal) else none)
    if pairs.length < 2 then Fl.nan
    else
      let signal_ranks := compute_ranks (pairs.map Prod.fst)
      let return_ranks := compute_ranks (pairs.map Prod.snd)
      spearman_correlation signal_ranks return_ranks

/-! ## `tarifa-eval/src/metrics.rs` -/

/-- `MetricsConfig` (metrics.rs:12-21). -/
structure MetricsConfig where
  min_observations : ℕ
  turnover_periods : ℕ
  annualize : Bool
  trading_days_per_year : ℕ

/-- The fields of `InformationRatio` (metrics.rs:39-48). -/
structure InformationRatioResult where
  mean_ic : F
  std_ic : Fl ℝ
  ir : Fl ℝ
  n_obs : ℕ

/-- `InformationRatio::calculate` (metrics.rs:70-115): filter the finite IC
values; all-NaN result below `min_observations`; otherwise mean, sample
variance (the `f64` quotient `0/0` at `n_obs = 1` is NaN), `std = √variance`,
and `ir = mean/std (· √trading_days_per_year when annualize)` guarded by
`std > 0`, which `sqrtGtZeroB` decides on the variance. -/
noncomputable def informationRatioCalculate (ic_series : List F)
    (config : MetricsConfig) : InformationRatioResult :=
  let valid_ics : List ℚ := finiteVals ic_series
  let n_obs := valid_ics.length
  if n_obs < config.min_observations then ⟨Fl.nan, Fl.nan, Fl.nan, n_obs⟩
  else
    let mean_ic : F := Fl.div (Fl.fin valid_ics.sum) (Fl.fin (n_obs : ℚ))
    let variance : F :=
      Fl.div
        (Fl.fsum (valid_ics.map (fun ic => Fl.sq (Fl.sub (Fl.fin ic) mean_ic))))
        (Fl.fin ((n_obs - 1 : ℕ) : ℚ))
    let std_ic : Fl ℝ := sqrtR (toR variance)
    let ir : Fl ℝ :=
      if sqrtGtZeroB variance then
        if config.annualize then
          Fl.mul (Fl.div (toR mean_ic) std_ic)
            (Fl.fin (Real.sqrt (config.trading_days_per_year : ℝ)))
        else Fl.div (toR mean_ic) std_ic
      else Fl.nan
    ⟨mean_ic, std_ic, ir, n_obs⟩

/-- Modelled from the spec wording of claim C9 only, for comparison with the
source: the claimed IR value `mean(IC)/stdev(IC) · √trading_days_per_year`
evaluated in IEEE arithmetic, with no zero-stdev guard. -/
noncomputable def irSpecC9 (mean std : Fl ℝ) (config : MetricsConfig) : Fl ℝ :=
  if config.annualize then
    Fl.mul (Fl.div mean std) (Fl.fin (Real.sqrt (config.trading_days_per_year : ℝ)))
  else Fl.div mean std

/-! ## `tarifa-combine/src/ic_weight.rs` -/

/-- `ICWeightedConfig` (ic_weight.rs:12-19). -/
structure ICWeightedConfig where
  ic_lookback : ℕ
  decay_factor : ℚ

/-- `SignalScore` (combiner.rs): a named score vector. -/
structure SignalScore where
  name : String
  scores : List F

/-- `ICWeightedCombiner` (ic_weight.rs:65-68); the `HashMap` is modelled as
an association list keyed by signal name. -/
structure ICWeightedCombiner where
  config : ICWeightedConfig
  ic_history : List (String × List F)

/-- `ICWeightedCombiner::new` (ic_weight.rs:72-77). -/
def newCombiner (config : ICWeightedConfig) : ICWeightedCombiner :=
  ⟨config, []⟩

/-- Insert-or-replace on the association list modelling the `HashMap`
entry API. -/
def assocSet : List (String × List F) → String → List F → List (String × List F)
  | [], k, v => [(k, v)]
  | (k', v') :: rest, k, v =>
      if k' = k then (k, v) :: rest else (k', v') :: assocSet rest k v

/-- `ICWeightedCombiner::update_ic` (ic_weight.rs:87-95): append the IC to
the signal's history (creating it if absent) and evict the oldest entry
when over `ic_lookback`. -/
def update_ic (c : ICWeightedCombiner) (signal_name : String) (ic : F) :
    ICWeightedCombiner :=
  let history := ((c.ic_history.lookup signal_name).getD []) ++ [ic]
  let history :=
    if c.config.ic_lookback < history.length then history.drop 1 else history
  { c with ic_history := assocSet c.ic_history signal_name history }

/-- `ICWeightedCombiner::compute_weighted_ic` (ic_weight.rs:98-125): zero
without history; plain average when `|decay_factor| < 1e-10`; otherwise the
`exp(−decay · age)`-weighted average, zero when the total weight is tiny. -/
noncomputable def compute_weighted_ic (c : ICWeightedCombiner)
    (signal_name : String) : Fl ℝ :=
  match c.ic_history.lookup signal_name with
  | none => Fl.fin 0
  | some h =>
      if h.isEmpty then Fl.fin 0
      else if |c.config.decay_factor| < 1 / 10 ^ 10 then
        toR (Fl.div (Fl.fsum h) (Fl.fin (h.length : ℚ)))
      else
        let wt : ℕ → ℝ := fun i =>
          Real.exp (-(c.config.decay_factor : ℝ) * ((h.length - 1 - i : ℕ) : ℝ))
        let weighted_sum : Fl ℝ :=
          h.enum.foldl
            (fun acc p => Fl.add acc (Fl.mul (toR p.2) (Fl.fin (wt p.1))))
            (Fl.fin 0)
        let total_weight : ℝ := h.enum.foldl (fun acc p => acc + wt p.1) 0
        if 1 / 10 ^ 10 < total_weight then Fl.div weighted_sum (Fl.fin total_weight)
        else Fl.fin 0

/-- IEEE absolute value. -/
def Fl.fabs {α : Type} [LinearOrderedField α] : Fl α → Fl α
  | Fl.fin x => Fl.fin |x|
  | Fl.nan => Fl.nan
  | Fl.pinf => Fl.pinf
  | Fl.ninf => Fl.pinf

/-- IEEE `<` as a boolean (false whenever either side is NaN). -/
noncomputable def Fl.fltB : Fl ℝ → Fl ℝ → Bool
  | Fl.fin a, Fl.fin b => decide (a < b)
  | Fl.fin _, Fl.pinf => true
  | Fl.ninf, Fl.fin _ => true
  | Fl.ninf, Fl.pinf => true
  | _, _ => false

/-- `ICWeightedCombiner::compute_weights` (ic_weight.rs:128-150): equal
weights when every weighted IC is within 1e-10 of zero or the absolute
total is below 1e-10, otherwise `|IC|` normalised to sum to 1. -/
noncomputable def compute_weights (c : ICWeightedCombiner)
    (signals : List SignalScore) : List (Fl ℝ) :=
  let ics := signals.map (fun s => compute_weighted_ic c s.name)
  if ics.all (fun ic => Fl.fltB (Fl.fabs ic) (Fl.fin (1 / 10 ^ 10))) then
    List.replicate signals.length (Fl.fin (1 / (signals.length : ℝ)))
  else
    let abs_ics := ics.map Fl.fabs
    let total : Fl ℝ := abs_ics.foldl Fl.add (Fl.fin 0)
    if Fl.fltB total (Fl.fin (1 / 10 ^ 10)) then
      List.replicate signals.length (Fl.fin (1 / (signals.length : ℝ)))
    else abs_ics.map (fun ic => Fl.div ic total)

/-- `ICWeightedCombiner::standardize` (ic_weight.rs:153-162), the ndarray
z-score used on the composite: zeros when `std < 1e-10` (note the strict
`<`, unlike stats.rs), else `(scores − mean)/std`. -/
noncomputable def combinerStandardize (scores : List (Fl ℝ)) : List (Fl ℝ) :=
  let n := scores.length
  let mean := Fl.div (scores.foldl Fl.add (Fl.fin 0)) (Fl.fin (n : ℝ))
  let variance :=
    Fl.div ((scores.map (fun x => Fl.sq (Fl.sub x mean))).foldl Fl.add (Fl.fin 0))
      (Fl.fin ((n - 1 : ℕ) : ℝ))
  let std := sqrtR variance
  if Fl.fltB std (Fl.fin (1 / 10 ^ 10)) then List.replicate n (Fl.fin 0)
  else scores.map (fun x => Fl.div (Fl.sub x mean) std)

/-- `ICWeightedCombiner::combine` (ic_weight.rs:172-210), a `&self` method:
the state component of the returned pair is the untouched receiver.  Empty
input and length mismatches are `InvalidData`-style errors; otherwise the
weighted sum of the signals is standardized and validated to be finite. -/
noncomputable def combine (c : ICWeightedCombiner) (signals : List SignalScore) :
    ICWeightedCombiner × Except String (List (Fl ℝ)) :=
  (c,
    if signals.isEmpty then Except.error "Cannot combine zero signals"
    else
      let n_assets := (signals.headD ⟨"", []⟩).scores.length
      if signals.any (fun s => s.scores.length ≠ n_assets) then
        Except.error "signal length mismatch"
      else
        let weights := compute_weights c signals
        let composite : List (Fl ℝ) :=
          (signals.zip weights).foldl
            (fun comp p =>
              List.zipWith Fl.add comp
                (p.1.scores.map (fun x => Fl.mul (toR x) p.2)))
            (List.replicate n_assets (Fl.fin 0))
        let composite := combinerStandardize composite
        if composite.any (fun x => !x.isFinite) then
          Except.error "Combination produced non-finite values"
        else Except.ok composite)

/-! ## General helpers about `List.set` folds and L1 norms -/

/-- The L1 norm of a position vector. -/
def l1 (l : List ℚ) : ℚ := (l.map (fun x => |x|)).sum

theorem l1_nonneg (l : List ℚ) : 0 ≤ l1 l := by
  refine List.sum_nonneg ?_
  intro x hx
  rcases List.mem_map.mp hx with ⟨y, _, rfl⟩
  exact abs_nonneg y

@[simp] theorem l1_nil : l1 [] = 0 := rfl

@[simp] theorem l1_cons (x : ℚ) (xs : List ℚ) : l1 (x :: xs) = |x| + l1 xs := rfl

@[simp] theorem l1_replicate_zero (n : ℕ) : l1 (List.replicate n (0 : ℚ)) = 0 := by
  induction n with
  | zero => rfl
  | succ k ih => simp [List.replicate_succ, ih]

theorem l1_set_le (v : List ℚ) (i : ℕ) (a : ℚ) : l1 (v.set i a) ≤ l1 v + |a| := by
  induction v generalizing i with
  | nil => simpa using abs_nonneg a
  | cons x xs ih =>
      cases i with
      | zero =>
          simp only [List.set_cons_zero, l1_cons]
          have := abs_nonneg x
          linarith
      | succ j =>
          simp only [List.set_cons_succ, l1_cons]
          have := ih j
          linarith

theorem l1_foldl_set_le (w : ℕ × ℚ → ℚ) :
    ∀ (l : List (ℕ × ℚ)) (v : List ℚ),
      l1 (l.foldl (fun ps p => ps.set p.1 (w p)) v) ≤
        l1 v + (l.map (fun p => |w p|)).sum := by
  intro l
  induction l with
  | nil => intro v; simp
  | cons p rest ih =>
      intro v
      have h1 := ih (v.set p.1 (w p))
      have h2 := l1_set_le v p.1 (w p)
      simp only [List.foldl_cons, List.map_cons, List.sum_cons]
      linarith

theorem length_foldl_set (w : ℕ × ℚ → ℚ) :
    ∀ (l : List (ℕ × ℚ)) (v : List ℚ),
      (l.foldl (fun ps p => ps.set p.1 (w p)) v).length = v.length := by
  intro l
  induction l with
  | nil => intro v; rfl
  | cons p rest ih => intro v; simpa using ih (v.set p.1 (w p))

theorem sum_set_of_zero (v : List ℚ) (i : ℕ) (a : ℚ) (h : v[i]? = some 0) :
    (v.set i a).sum = v.sum + a := by
  induction v generalizing i with
  | nil => simp at h
  | cons x xs ih =>
      cases i with
      | zero =>
          simp only [List.getElem?_cons_zero, Option.some.injEq] at h
          simp only [List.set_cons_zero, List.sum_cons, h]
          ring
      | succ j =>
          simp only [List.getElem?_cons_succ] at h
          simp only [List.set_cons_succ, List.sum_cons, ih j h]
          ring

theorem getElem?_foldl_set_of_not_mem (w : ℕ × ℚ → ℚ) :
    ∀ (l : List (ℕ × ℚ)) (v : List ℚ) (j : ℕ), j ∉ l.map Prod.fst →
      (l.foldl (fun ps p => ps.set p.1 (w p)) v)[j]? = v[j]? := by
  intro l
  induction l with
  | nil => intro v j _; rfl
  | cons p rest ih =>
      intro v j hj
      simp only [List.map_cons, List.mem_cons, not_or] at hj
      simp only [List.foldl_cons]
      rw [ih (v.set p.1 (w p)) j hj.2, List.getElem?_set_ne (fun h => hj.1 h.symm)]

theorem sum_foldl_set (w : ℕ × ℚ → ℚ) :
    ∀ (l : List (ℕ × ℚ)) (v : List ℚ), (l.map Prod.fst).Nodup →
      (∀ p ∈ l, v[p.1]? = some 0) →
      (l.foldl (fun ps p => ps.set p.1 (w p)) v).sum = v.sum + (l.map w).sum := by
  intro l
  induction l with
  | nil => intro v _ _; simp
  | cons p rest ih =>
      intro v hnd hz
      simp only [List.map_cons, List.nodup_cons] at hnd
      have hz0 : v[p.1]? = some 0 := hz p (List.mem_cons_self _ _)
      have hrest : ∀ q ∈ rest, (v.set p.1 (w p))[q.1]? = some 0 := by
        intro q hq
        have hne : p.1 ≠ q.1 := by
          intro h
          exact hnd.1 (h ▸ List.mem_map_of_mem Prod.fst hq)
        rw [List.getElem?_set_ne hne]
        exact hz q (List.mem_cons_of_mem _ hq)
      simp only [List.foldl_cons, List.map_cons, List.sum_cons]
      rw [ih (v.set p.1 (w p)) hnd.2 hrest, sum_set_of_zero v p.1 (w p) hz0]
      ring

/-! ## Claim C2: bounds on recorded turnover -/

theorem zip_abs_diff_nonneg :
    ∀ (a b : List ℚ), 0 ≤ (List.zipWith (fun old new => |new - old|) a b).sum := by
  intro a
  induction a with
  | nil => intro b; simp
  | cons x xs ih =>
      intro b
      cases b with
      | nil => simp
      | cons y ys =>
          simp only [List.zipWith_cons_cons, List.sum_cons]
          have := ih ys
          have := abs_nonneg (y - x)
          linarith

theorem zip_abs_diff_le_l1 :
    ∀ (a b : List ℚ),
      (List.zipWith (fun old new => |new - old|) a b).sum ≤ l1 a + l1 b := by
  intro a
  induction a with
  | nil =>
      intro b
      have := l1_nonneg b
      simpa using this
  | cons x xs ih =>
      intro b
      cases b with
      | nil =>
          have hx := l1_nonneg (x :: xs)
          simpa using hx
      | cons y ys =>
          simp only [List.zipWith_cons_cons, List.sum_cons, l1_cons]
          have h1 := ih ys
          have h2 : |y - x| ≤ |x| + |y| := by
            calc |y - x| ≤ |y| + |x| := abs_sub y x
            _ = |x| + |y| := by ring
          linarith

theorem calculate_turnover_nonneg (a b : List ℚ) :
    0 ≤ Backtest.calculate_turnover a b := by
  have := zip_abs_diff_nonneg a b
  unfold Backtest.calculate_turnover
  linarith

theorem calculate_turnover_le (a b : List ℚ) :
    Backtest.calculate_turnover a b ≤ (l1 a + l1 b) / 2 := by
  have := zip_abs_diff_le_l1 a b
  unfold Backtest.calculate_turnover
  linarith

theorem count_mul_inv_le_one (count nk : ℕ) (hc : count ≤ nk) :
    (count : ℚ) * (1 / (nk : ℚ)) ≤ 1 := by
  rcases Nat.eq_zero_or_pos nk with h | h
  · subst h; simp
  · have h0 : (0 : ℚ) < (nk : ℚ) := by exact_mod_cast h
    have hcq : (count : ℚ) ≤ (nk : ℚ) := by exact_mod_cast hc
    calc (count : ℚ) * (1 / (nk : ℚ)) ≤ (nk : ℚ) * (1 / (nk : ℚ)) := by
          apply mul_le_mul_of_nonneg_right hcq
          positivity
    _ = 1 := by field_simp

/-- Half the sum of two constant-weight assignment passes: the total
absolute weight written by one pass of `construct_portfolio`. -/
theorem pass_weight_sum_le_one (l : List (ℕ × ℚ)) (nk : ℕ) (hlen : l.length ≤ nk)
    (w : ℚ) (hw : w = 0 ∨ |w| = 1 / (nk : ℚ)) :
    (l.map (fun _ => |w|)).sum ≤ 1 := by
  rw [List.map_const', List.sum_replicate, nsmul_eq_mul]
  rcases hw with h | h
  · subst h; simp
  · rw [h]; exact count_mul_inv_le_one _ _ hlen

/-- Any portfolio built by `construct_portfolio` has L1 norm at most 2:
each pass writes at most `n_long · (1/n_long) ≤ 1` (resp. `n_short`)
of absolute weight, and overwrites only lower the total. -/
theorem construct_portfolio_l1_le (cfg : BacktestConfig) (scores : List F) :
    l1 (Backtest.construct_portfolio cfg scores) ≤ 2 := by
  unfold Backtest.construct_portfolio
  dsimp only
  split
  · simp
  · split
    · -- long/short branch: two constant-weight passes
      set n_assets := scores.length with hn
      set indexed_scores : List (ℕ × ℚ) :=
        scores.enum.filterMap
          (fun p => if p.2.isFinite then some (p.1, p.2.toVal) else none) with hidx
      set sorted := indexed_scores.insertionSort (fun a b => b.2 ≤ a.2) with hs
      set n_long := cfg.n_long.getD (n_assets / 2) with hnl
      set n_short := cfg.n_short.getD (n_assets / 2) with hns
      set long_weight : ℚ := if 0 < n_long then 1 / (n_long : ℚ) else 0 with hlw
      set short_weight : ℚ := if 0 < n_short then -1 / (n_short : ℚ) else 0 with hsw
      have hb1 :
          (List.map (fun _ => |long_weight|) (sorted.take (min n_long sorted.length))).sum ≤ 1 := by
        apply pass_weight_sum_le_one _ n_long
        · simpa using min_le_left n_long sorted.length
        · rw [hlw]; split
          · right; rw [abs_of_pos]; positivity
          · left; rfl
      have hb2 :
          (List.map (fun _ => |short_weight|) (sorted.drop (sorted.length - n_short))).sum ≤ 1 := by
        apply pass_weight_sum_le_one _ n_short
        · simp only [List.length_drop]; omega
        · rw [hsw]; split
          · right
            rw [abs_div, abs_neg, abs_one, abs_of_nonneg (by positivity : (0:ℚ) ≤ (n_short : ℚ))]
          · left; rfl
      have k1 := l1_foldl_set_le (fun _ => long_weight)
        (sorted.take (min n_long sorted.length)) (List.replicate n_assets 0)
      have k2 := l1_foldl_set_le (fun _ => short_weight)
        (sorted.drop (sorted.length - n_short))
        ((sorted.take (min n_long sorted.length)).foldl
          (fun ps p => ps.set p.1 long_weight) (List.replicate n_assets 0))
      simp only [l1_replicate_zero] at k1
      linarith
    · -- long-only branch: one constant-weight pass
      set n_assets := scores.length with hn
      set indexed_scores : List (ℕ × ℚ) :=
        scores.enum.filterMap
          (fun p => if p.2.isFinite then some (p.1, p.2.toVal) else none) with hidx
      set sorted := indexed_scores.insertionSort (fun a b => b.2 ≤ a.2) with hs
      set n_long := cfg.n_long.getD n_assets with hnl
      set weight : ℚ := if 0 < n_long then 1 / (n_long : ℚ) else 0 with hw
      have hb1 :
          (List.map (fun _ => |weight|) (sorted.take (min n_long sorted.length))).sum ≤ 1 := by
        apply pass_weight_sum_le_one _ n_long
        · simpa using min_le_left n_long sorted.length
        · rw [hw]; split
          · right; rw [abs_of_pos]; positivity
          · left; rfl
      have k1 := l1_foldl_set_le (fun _ => weight)
        (sorted.take (min n_long sorted.length)) (List.replicate n_assets 0)
      simp only [l1_replicate_zero] at k1
      linarith

/-- `runStep` preserves the turnover-record invariant. -/
theorem runStep_turnover_inv (cfg : BacktestConfig) (ss rs : List (List F))
    (i : ℕ) (s : Backtest.RunState)
    (h1 : l1 s.current_positions ≤ 2)
    (h2 : ∀ t ∈ s.turnover_history, 0 ≤ t ∧ t ≤ 2) :
    l1 (Backtest.runStep cfg ss rs s i).current_positions ≤ 2 ∧
      ∀ t ∈ (Backtest.runStep cfg ss rs s i).turnover_history, 0 ≤ t ∧ t ≤ 2 := by
  unfold Backtest.runStep
  dsimp only
  split
  · split
    · refine ⟨construct_portfolio_l1_le cfg _, ?_⟩
      intro t ht
      simp only [List.mem_append, List.mem_singleton] at ht
      rcases ht with h | h
      · exact h2 t h
      · subst h
        refine ⟨calculate_turnover_nonneg _ _, ?_⟩
        have hle := calculate_turnover_le s.current_positions
          (Backtest.construct_portfolio cfg (ss.getD i []))
        have hnew := construct_portfolio_l1_le cfg (ss.getD i [])
        linarith
    · exact ⟨construct_portfolio_l1_le cfg _, h2⟩
  · exact ⟨h1, h2⟩

/-- claim C2 (amended): every turnover value recorded during a backtest run
lies in the closed interval [0, 2]. -/
theorem claim_C2_turnover_bounds (cfg : BacktestConfig) (ss rs : List (List F))
    (dates_len : ℕ) :
    ∀ t ∈ (Backtest.runCore cfg ss rs dates_len).turnover_history,
      0 ≤ t ∧ t ≤ 2 := by
  have key : ∀ (l : List ℕ) (s : Backtest.RunState),
      l1 s.current_positions ≤ 2 → (∀ t ∈ s.turnover_history, 0 ≤ t ∧ t ≤ 2) →
      ∀ t ∈ (l.foldl (Backtest.runStep cfg ss rs) s).turnover_history,
        0 ≤ t ∧ t ≤ 2 := by
    intro l
    induction l with
    | nil => intro s _ h2; exact h2
    | cons i rest ih =>
        intro s h1 h2
        simp only [List.foldl_cons]
        have hstep := runStep_turnover_inv cfg ss rs i s h1 h2
        exact ih _ hstep.1 hstep.2
  unfold Backtest.runCore
  dsimp only
  exact key _ _ (by simp) (by intro t ht; cases ht)

/-- claim C2, counterexample: a daily-rebalanced 1-long/1-short backtest on
two assets whose scores swap between the two periods records the turnover
value 2, which is not in [0, 1]. -/
theorem claim_C2_counterexample :
    (Backtest.runCore ⟨0, 0, 1, 0, 1000000, 1 / 10, 0, some 1, some 1, true⟩
        [[Fl.fin 1, Fl.fin 2], [Fl.fin 2, Fl.fin 1]]
        [[Fl.fin 0, Fl.fin 0], [Fl.fin 0, Fl.fin 0]] 2).turnover_history = [2]
      ∧ ¬ ((2 : ℚ) ≤ 1) := by
  constructor
  · norm_num [Backtest.runCore, Backtest.runStep, Backtest.construct_portfolio,
      Backtest.calculate_turnover, Backtest.calculate_portfolio_return,
      List.range_succ, List.insertionSort, List.orderedInsert, List.filterMap,
      Fl.isFinite, Fl.toVal, List.replicate, List.set, List.zipWith]
  · norm_num

/-- claim C2, witness: the same run records the value 2, and the bound
theorem applies to it. -/
theorem claim_C2_witness :
    (2 : ℚ) ∈ (Backtest.runCore ⟨0, 0, 1, 0, 1000000, 1 / 10, 0, some 1, some 1, true⟩
        [[Fl.fin 1, Fl.fin 2], [Fl.fin 2, Fl.fin 1]]
        [[Fl.fin 0, Fl.fin 0], [Fl.fin 0, Fl.fin 0]] 2).turnover_history
      ∧ 0 ≤ (2 : ℚ) ∧ (2 : ℚ) ≤ 2 := by
  have h : (Backtest.runCore ⟨0, 0, 1, 0, 1000000, 1 / 10, 0, some 1, some 1, true⟩
      [[Fl.fin 1, Fl.fin 2], [Fl.fin 2, Fl.fin 1]]
      [[Fl.fin 0, Fl.fin 0], [Fl.fin 0, Fl.fin 0]] 2).turnover_history = [2] := by
    norm_num [Backtest.runCore, Backtest.runStep, Backtest.construct_portfolio,
      Backtest.calculate_turnover, Backtest.calculate_portfolio_return,
      List.range_succ, List.insertionSort, List.orderedInsert, List.filterMap,
      Fl.isFinite, Fl.toVal, List.replicate, List.set, List.zipWith]
  refine ⟨?_, claim_C2_turnover_bounds
    ⟨0, 0, 1, 0, 1000000, 1 / 10, 0, some 1, some 1, true⟩
    [[Fl.fin 1, Fl.fin 2], [Fl.fin 2, Fl.fin 1]]
    [[Fl.fin 0, Fl.fin 0], [Fl.fin 0, Fl.fin 0]] 2 2 ?_⟩ <;>
    · rw [h]; exact List.mem_singleton.mpr rfl

/-! ## Claim C6: compounding monotonicity and zero drawdown -/

/-- The cumulative-return series obtained by compounding
`R ← (1+R)(1+r) − 1` from seed `c`, recording each intermediate value —
the contents of `cumulative_returns` as built by the `Backtest::run` loop. -/
def cumFrom (c : ℚ) : List ℚ → List ℚ
  | [] => []
  | r :: rs => ((1 + c) * (1 + r) - 1) :: cumFrom ((1 + c) * (1 + r) - 1) rs

theorem cumFrom_append (rs : List ℚ) (r : ℚ) :
    ∀ c, cumFrom c (rs ++ [r]) =
      cumFrom c rs ++ [(1 + (cumFrom c rs).getLastD c) * (1 + r) - 1] := by
  induction rs with
  | nil => intro c; simp [cumFrom]
  | cons r0 rest ih =>
      intro c
      simp only [List.cons_append, cumFrom, List.getLastD_cons, List.append_eq]
      rw [ih]

/-- The invariant tying the `Backtest::run` loop state to `cumFrom`. -/
def cumInv (s : Backtest.RunState) : Prop :=
  s.cumulative_returns = cumFrom 0 s.portfolio_returns ∧
    s.cum_ret = s.cumulative_returns.getLastD 0

theorem runStep_cumInv (cfg : BacktestConfig) (ss rs : List (List F)) (i : ℕ)
    (s : Backtest.RunState) (h : cumInv s) :
    cumInv (Backtest.runStep cfg ss rs s i) := by
  obtain ⟨h1, h2⟩ := h
  unfold Backtest.runStep
  dsimp only
  have key : ∀ (s' : Backtest.RunState),
      s'.cumulative_returns = s.cumulative_returns →
      s'.portfolio_returns = s.portfolio_returns →
      s'.cum_ret = s.cum_ret →
      ∀ r : ℚ,
        cumInv { s' with
          portfolio_returns := s'.portfolio_returns ++ [r],
          cum_ret := (1 + s'.cum_ret) * (1 + r) - 1,
          cumulative_returns :=
            s'.cumulative_returns ++ [(1 + s'.cum_ret) * (1 + r) - 1] } := by
    intro s' e1 e2 e3 r
    constructor
    · show s'.cumulative_returns ++ _ = cumFrom 0 (s'.portfolio_returns ++ [r])
      rw [cumFrom_append, e1, e2, e3, ← h1, h2]
    · show (1 + s'.cum_ret) * (1 + r) - 1 =
        (s'.cumulative_returns ++ [(1 + s'.cum_ret) * (1 + r) - 1]).getLastD 0
      rw [List.getLastD_concat]
  split
  · split
    · exact key _ rfl rfl rfl _
    · exact key _ rfl rfl rfl _
  · exact key _ rfl rfl rfl _

theorem runCore_cumInv (cfg : BacktestConfig) (ss rs : List (List F))
    (dates_len : ℕ) : cumInv (Backtest.runCore cfg ss rs dates_len) := by
  have key : ∀ (l : List ℕ) (s : Backtest.RunState), cumInv s →
      cumInv (l.foldl (Backtest.runStep cfg ss rs) s) := by
    intro l
    induction l with
    | nil => intro s hs; exact hs
    | cons i rest ih =>
        intro s hs
        exact ih _ (runStep_cumInv cfg ss rs i s hs)
  exact key _ _ ⟨rfl, rfl⟩

/-- Compounding strictly positive returns from a seed above −1 produces a
strictly increasing chain above the seed. -/
theorem cumFrom_chain (rs : List ℚ) :
    ∀ c : ℚ, (∀ r ∈ rs, 0 < r) → -1 < c →
      List.Chain (· < ·) c (cumFrom c rs) := by
  induction rs with
  | nil => intro c _ _; exact List.Chain.nil
  | cons r rest ih =>
      intro c hpos hc
      have hr : 0 < r := hpos r (List.mem_cons_self _ _)
      have hlt : c < (1 + c) * (1 + r) - 1 := by nlinarith
      have hc' : (-1 : ℚ) < (1 + c) * (1 + r) - 1 := by nlinarith
      exact List.Chain.cons hlt
        (ih _ (fun x hx => hpos x (List.mem_cons_of_mem _ hx)) hc')

/-- Folding `mddStep` along a chain strictly above the current peak leaves
the accumulated maximum drawdown at 0. -/
theorem mdd_fold_zero (l : List ℚ) :
    ∀ p : ℚ, List.Chain (· < ·) p l →
      (l.foldl Backtest.mddStep (0, p)).1 = 0 := by
  induction l with
  | nil => intro p _; rfl
  | cons c rest ih =>
      intro p hch
      rcases hch with _ | ⟨hlt, hrest⟩
      have hstep : Backtest.mddStep (0, p) c = (0, c) := by
        unfold Backtest.mddStep
        simp [if_pos hlt]
      simp only [List.foldl_cons, hstep]
      exact ih c hrest

/-- claim C6: if every per-period portfolio return recorded by a backtest
run is strictly positive, the cumulative-return series is strictly
increasing and `Backtest.calculate_max_drawdown` over it returns 0. -/
theorem claim_C6_monotone_zero_drawdown (cfg : BacktestConfig)
    (ss rs : List (List F)) (dates_len : ℕ)
    (hpos : ∀ r ∈ (Backtest.runCore cfg ss rs dates_len).portfolio_returns, 0 < r) :
    List.Pairwise (· < ·) (Backtest.runCore cfg ss rs dates_len).cumulative_returns ∧
      Backtest.calculate_max_drawdown
        (Backtest.runCore cfg ss rs dates_len).cumulative_returns = 0 := by
  obtain ⟨h1, _⟩ := runCore_cumInv cfg ss rs dates_len
  have hch : List.Chain (· < ·) 0
      (cumFrom 0 (Backtest.runCore cfg ss rs dates_len).portfolio_returns) :=
    cumFrom_chain _ 0 hpos (by norm_num)
  rw [h1]
  constructor
  · have hch' : List.Chain' (· < ·)
        (0 :: cumFrom 0 (Backtest.runCore cfg ss rs dates_len).portfolio_returns) := hch
    exact List.chain'_iff_pairwise.mp hch'.tail
  · unfold Backtest.calculate_max_drawdown
    exact mdd_fold_zero _ 0 hch

/-- claim C6, witness: one period, one asset, long-only full weight, a 1%
asset return; the run's only portfolio return is positive and the
conclusions hold. -/
theorem claim_C6_witness :
    (∀ r ∈ (Backtest.runCore ⟨0, 0, 1, 0, 1000000, 1 / 10, 0, some 1, none, false⟩
        [[Fl.fin 1]] [[Fl.fin (1 / 100)]] 1).portfolio_returns, 0 < r) ∧
      (List.Pairwise (· < ·)
          (Backtest.runCore ⟨0, 0, 1, 0, 1000000, 1 / 10, 0, some 1, none, false⟩
            [[Fl.fin 1]] [[Fl.fin (1 / 100)]] 1).cumulative_returns ∧
        Backtest.calculate_max_drawdown
          (Backtest.runCore ⟨0, 0, 1, 0, 1000000, 1 / 10, 0, some 1, none, false⟩
            [[Fl.fin 1]] [[Fl.fin (1 / 100)]] 1).cumulative_returns = 0) := by
  have hpos : ∀ r ∈ (Backtest.runCore ⟨0, 0, 1, 0, 1000000, 1 / 10, 0, some 1, none, false⟩
      [[Fl.fin 1]] [[Fl.fin (1 / 100)]] 1).portfolio_returns, 0 < r := by
    have h : (Backtest.runCore ⟨0, 0, 1, 0, 1000000, 1 / 10, 0, some 1, none, false⟩
        [[Fl.fin 1]] [[Fl.fin (1 / 100)]] 1).portfolio_returns = [1 / 100] := by
      norm_num [Backtest.runCore, Backtest.runStep, Backtest.construct_portfolio,
        Backtest.calculate_turnover, Backtest.calculate_portfolio_return,
        List.range_succ, List.insertionSort, List.orderedInsert, List.filterMap,
        Fl.isFinite, Fl.toVal, List.replicate, List.set, List.zipWith]
    rw [h]
    intro r hr
    rw [List.mem_singleton] at hr
    subst hr
    norm_num
  exact ⟨hpos, claim_C6_monotone_zero_drawdown _ _ _ _ hpos⟩

/-! ## Claim C5: dollar-neutral long/short construction -/

theorem enumFrom_filterMap_all_finite (l : List F)
    (h : ∀ x ∈ l, x.isFinite = true) :
    ∀ k, (List.enumFrom k l).filterMap
        (fun p => if p.2.isFinite then some (p.1, p.2.toVal) else none) =
      (List.enumFrom k l).map (fun p => (p.1, p.2.toVal)) := by
  induction l with
  | nil => intro k; rfl
  | cons x xs ih =>
      intro k
      have hx : x.isFinite = true := h x (List.mem_cons_self _ _)
      simp only [List.enumFrom_cons, List.filterMap_cons, hx, if_pos, List.map_cons]
      rw [ih (fun y hy => h y (List.mem_cons_of_mem _ hy)) (k + 1)]

/-- The sum of the positions after the two constant-weight passes of
`construct_portfolio` over disjoint index segments is
`n_long · long_weight + n_short · short_weight`. -/
theorem two_pass_sum (sorted : List (ℕ × ℚ)) (n nl ns : ℕ)
    (hlen : sorted.length = n)
    (hnodup : (sorted.map Prod.fst).Nodup)
    (hlt : ∀ p ∈ sorted, p.1 < n)
    (hcount : nl + ns ≤ n)
    (lw sw : ℚ) :
    ((sorted.drop (sorted.length - ns)).foldl (fun ps p => ps.set p.1 sw)
      ((sorted.take (min nl sorted.length)).foldl (fun ps p => ps.set p.1 lw)
        (List.replicate n (0 : ℚ)))).sum = nl * lw + ns * sw := by
  have hnl_le : nl ≤ n := by omega
  have hmin : min nl sorted.length = nl := by omega
  have htake_nodup : ((sorted.take (min nl sorted.length)).map Prod.fst).Nodup := by
    rw [List.map_take]
    exact hnodup.sublist (List.take_sublist _ _)
  have hdrop_nodup : ((sorted.drop (sorted.length - ns)).map Prod.fst).Nodup := by
    rw [List.map_drop]
    exact hnodup.sublist (List.drop_sublist _ _)
  have hz1 : ∀ p ∈ sorted.take (min nl sorted.length),
      (List.replicate n (0 : ℚ))[p.1]? = some 0 := by
    intro p hp
    have : p.1 < n := hlt p (List.take_subset _ _ hp)
    simp [List.getElem?_replicate, this]
  have h1 : ((sorted.take (min nl sorted.length)).foldl
      (fun ps p => ps.set p.1 lw) (List.replicate n (0 : ℚ))).sum =
      (List.replicate n (0 : ℚ)).sum +
        ((sorted.take (min nl sorted.length)).map (fun _ => lw)).sum :=
    sum_foldl_set (fun _ => lw) _ _ htake_nodup hz1
  have hdisj : List.Disjoint (List.take nl (sorted.map Prod.fst))
      (List.drop (sorted.length - ns) (sorted.map Prod.fst)) := by
    apply List.disjoint_take_drop hnodup
    omega
  have hz2 : ∀ q ∈ sorted.drop (sorted.length - ns),
      (((sorted.take (min nl sorted.length)).foldl
        (fun ps p => ps.set p.1 lw) (List.replicate n (0 : ℚ))))[q.1]? = some 0 := by
    intro q hq
    have hq_not : q.1 ∉ (sorted.take (min nl sorted.length)).map Prod.fst := by
      intro hmem
      apply hdisj
      · rw [hmin] at hmem
        rw [← List.map_take]
        exact hmem
      · rw [← List.map_drop]
        exact List.mem_map_of_mem Prod.fst hq
    have hq_lt : q.1 < n := hlt q (List.drop_subset _ _ hq)
    have := getElem?_foldl_set_of_not_mem (fun _ => lw)
      (sorted.take (min nl sorted.length)) (List.replicate n (0 : ℚ)) q.1 hq_not
    rw [this]
    simp [List.getElem?_replicate, hq_lt]
  have h2 : ((sorted.drop (sorted.length - ns)).foldl (fun ps p => ps.set p.1 sw)
      ((sorted.take (min nl sorted.length)).foldl (fun ps p => ps.set p.1 lw)
        (List.replicate n (0 : ℚ)))).sum =
      ((sorted.take (min nl sorted.length)).foldl (fun ps p => ps.set p.1 lw)
        (List.replicate n (0 : ℚ))).sum +
        ((sorted.drop (sorted.length - ns)).map (fun _ => sw)).sum :=
    sum_foldl_set (fun _ => sw) _ _ hdrop_nodup hz2
  rw [h2, h1]
  rw [List.map_const', List.map_const', List.sum_replicate, List.sum_replicate,
    List.sum_replicate]
  simp only [List.length_take, List.length_drop, smul_zero, nsmul_eq_mul, hlen]
  have e1 : nl ⊓ n ⊓ n = nl := by omega
  have e2 : n - (n - ns) = ns := by omega
  rw [e1, e2]
  ring

/-- claim C5: in long/short mode with `n_long = n_short`, all scores finite
and pairwise distinct, and `n_long + n_short` at most the number of assets,
the constructed portfolio weights sum to 0. -/
theorem claim_C5_dollar_neutral (cfg : BacktestConfig) (scores : List F)
    (hls : cfg.long_short = true)
    (heq : cfg.n_long = cfg.n_short)
    (hfin : ∀ x ∈ scores, x.isFinite = true)
    (hdist : (scores.map Fl.toVal).Nodup)
    (hcount : cfg.n_long.getD (scores.length / 2) +
        cfg.n_short.getD (scores.length / 2) ≤ scores.length) :
    (Backtest.construct_portfolio cfg scores).sum = 0 := by
  unfold Backtest.construct_portfolio
  dsimp only
  have hidx : scores.enum.filterMap
      (fun p => if p.2.isFinite then some (p.1, p.2.toVal) else none) =
      scores.enum.map (fun p => (p.1, p.2.toVal)) :=
    enumFrom_filterMap_all_finite scores hfin 0
  rw [hidx, hls]
  split
  · simp
  · simp only [if_pos]
    set sorted := (scores.enum.map (fun p => (p.1, p.2.toVal))).insertionSort
      (fun a b => b.2 ≤ a.2) with hsorted
    have hperm : sorted.Perm (scores.enum.map (fun p => (p.1, p.2.toVal))) :=
      List.perm_insertionSort _ _
    have hlen : sorted.length = scores.length := by
      rw [hperm.length_eq, List.length_map, List.enum_length]
    have hfst_perm : (sorted.map Prod.fst).Perm (List.range scores.length) := by
      have h1 := hperm.map Prod.fst
      have h2 : (scores.enum.map (fun p => (p.1, p.2.toVal))).map Prod.fst =
          List.range scores.length := by
        rw [List.map_map]
        exact List.enum_map_fst scores
      rw [h2] at h1
      exact h1
    have hnodup : (sorted.map Prod.fst).Nodup :=
      hfst_perm.symm.nodup (List.nodup_range _)
    have hlt : ∀ p ∈ sorted, p.1 < scores.length := by
      intro p hp
      have : p.1 ∈ sorted.map Prod.fst := List.mem_map_of_mem Prod.fst hp
      have := hfst_perm.mem_iff.mp this
      exact List.mem_range.mp this
    set nl := cfg.n_long.getD (scores.length / 2) with hnl
    set ns := cfg.n_short.getD (scores.length / 2) with hns
    have hnleq : nl = ns := by rw [hnl, hns, heq]
    have key := two_pass_sum sorted scores.length nl ns hlen hnodup hlt hcount
      (if 0 < nl then 1 / (nl : ℚ) else 0) (if 0 < ns then -1 / (ns : ℚ) else 0)
    rw [key]
    rcases Nat.eq_zero_or_pos nl with h0 | hpos
    · rw [hnleq] at h0
      rw [← hnleq, hnleq, h0]
      simp
    · have hpos' : 0 < ns := hnleq ▸ hpos
      rw [if_pos hpos, if_pos hpos', hnleq]
      have hne : (ns : ℚ) ≠ 0 :=
        Nat.cast_ne_zero.mpr (Nat.pos_iff_ne_zero.mp hpos')
      field_simp

/-- claim C5, witness: the spec's seed scenario — scores
`[0.5, −0.3, 0.8, −0.6, 0.1]` with 2 long and 2 short — sums to 0. -/
theorem claim_C5_witness :
    (Backtest.construct_portfolio ⟨0, 0, 21, 10, 1000000, 1 / 10, 0, some 2, some 2, true⟩
      [Fl.fin (1 / 2), Fl.fin (-3 / 10), Fl.fin (4 / 5), Fl.fin (-3 / 5),
        Fl.fin (1 / 10)]).sum = 0 := by
  apply claim_C5_dollar_neutral
  · rfl
  · rfl
  · intro x hx
    simp only [List.mem_cons, List.not_mem_nil, or_false] at hx
    rcases hx with rfl | rfl | rfl | rfl | rfl <;> rfl
  · simp only [List.map_cons, List.map_nil, Fl.toVal]
    norm_num [List.nodup_cons, List.mem_cons]
  · simp

/-! ## Claim C10: `combine` never touches the combiner's state -/

/-- claim C10: after any sequence of `update_ic` calls on a fresh combiner,
calling `combine` leaves both the per-signal IC history and the
configuration exactly as they were — in the source, `combine` takes
`&self`, so the embedded method returns its receiver unchanged; only
`update_ic` produces a new state. -/
theorem claim_C10_combine_preserves_state (cfg : ICWeightedConfig)
    (updates : List (String × F)) (signals : List SignalScore) :
    (combine (updates.foldl (fun c u => update_ic c u.1 u.2) (newCombiner cfg))
        signals).1.ic_history =
      (updates.foldl (fun c u => update_ic c u.1 u.2) (newCombiner cfg)).ic_history ∧
    (combine (updates.foldl (fun c u => update_ic c u.1 u.2) (newCombiner cfg))
        signals).1.config =
      (updates.foldl (fun c u => update_ic c u.1 u.2) (newCombiner cfg)).config :=
  ⟨rfl, rfl⟩

/-! ## Claim C3: `standardize` branch behaviour -/

theorem sqrtGtB_fin_true {v t : ℚ} (h : sqrtGtB (Fl.fin v) t = true) : t * t < v := by
  simpa [sqrtGtB, decide_eq_true_eq] using h

/-- Evaluating the z-score map `(x − μ)/σ` of the applied branch in IEEE
arithmetic, for a strictly positive finite `σ`. -/
theorem zscore_apply (x : F) (μ : ℚ) (s : ℝ) (hs : 0 < s) :
    Fl.div (Fl.sub (toR x) (Fl.fin (μ : ℝ))) (Fl.fin s) =
      (match x with
       | Fl.fin q => Fl.fin (((q : ℝ) - (μ : ℝ)) / s)
       | Fl.nan => Fl.nan
       | Fl.pinf => Fl.pinf
       | Fl.ninf => Fl.ninf) := by
  cases x with
  | fin q => simp [toR, Fl.sub, Fl.add, Fl.neg, Fl.div, if_neg (ne_of_gt hs), sub_eq_add_neg]
  | nan => rfl
  | pinf => simp [toR, Fl.sub, Fl.add, Fl.neg, Fl.div, if_pos (le_of_lt hs)]
  | ninf => simp [toR, Fl.sub, Fl.add, Fl.neg, Fl.div, if_pos (le_of_lt hs)]

/-- claim C3 (amended): `standardize` on an empty slice returns the empty
output; on a nonempty slice with *no* finite entries it returns all NaN
(not all zeros); with at least one finite entry and `σ ≤ 1e-10` it returns
all zeros; and when `σ > 1e-10` it returns `(x − μ)/σ` per entry, with NaN
propagating as NaN and `±∞` propagating as `±∞`. -/
theorem claim_C3_standardize_amended (values : List F) :
    (values = [] → standardize values = ([], ⟨Fl.nan, Fl.nan, false⟩))
    ∧ (values ≠ [] → finiteVals values = [] →
        (standardize values).1 = List.replicate values.length Fl.nan)
    ∧ (finiteVals values ≠ [] →
        sqrtGtB (Fl.fin (sampleVarQ (finiteVals values))) (1 / 10 ^ 10) = false →
        (standardize values).1 = List.replicate values.length (Fl.fin 0))
    ∧ (finiteVals values ≠ [] →
        sqrtGtB (Fl.fin (sampleVarQ (finiteVals values))) (1 / 10 ^ 10) = true →
        ∀ (i : ℕ) (x : F), values[i]? = some x →
          ((standardize values).1)[i]? = some
            (match x with
             | Fl.fin q => Fl.fin (((q : ℝ) - (sampleMeanQ (finiteVals values) : ℝ)) /
                 Real.sqrt (sampleVarQ (finiteVals values) : ℝ))
             | Fl.nan => Fl.nan
             | Fl.pinf => Fl.pinf
             | Fl.ninf => Fl.ninf)) := by
  refine ⟨?_, ?_, ?_, ?_⟩
  · intro h; subst h; rfl
  · intro hne hfe
    rcases List.exists_cons_of_ne_nil hne with ⟨v, vs, rfl⟩
    unfold standardize
    rw [if_neg (by simp), if_pos (by simp [hfe])]
  · intro hfe happ
    have hne : values ≠ [] := by
      intro h; subst h; exact hfe rfl
    rcases List.exists_cons_of_ne_nil hne with ⟨v, vs, hvv⟩
    unfold standardize
    rw [if_neg (by simp [hvv]), if_neg (by simp [hfe])]
    dsimp only
    rw [if_neg (by rw [happ]; simp)]
  · intro hfe happ i x hx
    have hne : values ≠ [] := by
      intro h; subst h; exact hfe rfl
    rcases List.exists_cons_of_ne_nil hne with ⟨v, vs, hvv⟩
    have hvpos : 0 < sampleVarQ (finiteVals values) := by
      have h1 := sqrtGtB_fin_true happ
      nlinarith
    have hs : (0 : ℝ) < Real.sqrt ((sampleVarQ (finiteVals values) : ℚ) : ℝ) := by
      rw [Real.sqrt_pos]
      exact_mod_cast hvpos
    unfold standardize
    rw [if_neg (by simp [hvv]), if_neg (by simp [hfe])]
    dsimp only
    rw [if_pos happ]
    simp only [List.getElem?_map, hx, Option.map_some', sqrtR]
    have hnonneg : ¬ (((sampleVarQ (finiteVals values) : ℚ) : ℝ) < 0) :=
      not_lt.mpr (by exact_mod_cast le_of_lt hvpos)
    rw [if_neg hnonneg, zscore_apply x _ _ hs]

/-- claim C3, counterexample: a nonempty input with no finite entries —
`[NaN]` — produces the output `[NaN]`, not the all-zeros output the claim
requires for fewer than 2 finite entries. -/
theorem claim_C3_counterexample :
    (standardize [Fl.nan]).1 = [Fl.nan] ∧ (Fl.nan : Fl ℝ) ≠ Fl.fin 0 :=
  ⟨rfl, fun h => Fl.noConfusion h⟩

/-- claim C3, witness: on `[1, 2, 3]` the variance is 1 > (1e-10)², and the
first output entry is `(1 − 2)/√1`. -/
theorem claim_C3_witness :
    finiteVals [Fl.fin 1, Fl.fin 2, Fl.fin 3] ≠ [] ∧
    sqrtGtB (Fl.fin (sampleVarQ (finiteVals [Fl.fin 1, Fl.fin 2, Fl.fin 3])))
      (1 / 10 ^ 10) = true ∧
    (standardize [Fl.fin 1, Fl.fin 2, Fl.fin 3]).1[0]? = some
      (Fl.fin ((((1 : ℚ) : ℝ) -
          ((sampleMeanQ (finiteVals [Fl.fin 1, Fl.fin 2, Fl.fin 3]) : ℚ) : ℝ)) /
        Real.sqrt ((sampleVarQ (finiteVals [Fl.fin 1, Fl.fin 2, Fl.fin 3]) : ℚ) : ℝ))) := by
  have h1 : finiteVals [Fl.fin 1, Fl.fin 2, Fl.fin 3] = [1, 2, 3] := by
    norm_num [finiteVals, List.filterMap, Fl.isFinite, Fl.toVal]
  have h2 : sqrtGtB (Fl.fin (sampleVarQ (finiteVals [Fl.fin 1, Fl.fin 2, Fl.fin 3])))
      (1 / 10 ^ 10) = true := by
    rw [h1]
    norm_num [sqrtGtB, sampleVarQ, sampleMeanQ, decide_eq_true_eq]
  refine ⟨by rw [h1]; exact List.cons_ne_nil _ _, h2, ?_⟩
  exact (claim_C3_standardize_amended [Fl.fin 1, Fl.fin 2, Fl.fin 3]).2.2.2
    (by rw [h1]; exact List.cons_ne_nil _ _) h2 0 (Fl.fin 1) rfl

/-! ## Claim C9: Information Ratio -/

theorem fl_div_fin_fin {α : Type} [LinearOrderedField α] (a b : α) (hb : b ≠ 0) :
    Fl.div (Fl.fin a) (Fl.fin b) = Fl.fin (a / b) := by
  simp [Fl.div, hb]

/-- The IEEE mean of the valid ICs equals the exact rational mean once there
is at least one observation. -/
theorem fl_mean_eq (valid : List ℚ) (h1 : 1 ≤ valid.length) :
    Fl.div (Fl.fin valid.sum) (Fl.fin (valid.length : ℚ)) =
      Fl.fin (sampleMeanQ valid) := by
  have hn0 : (valid.length : ℚ) ≠ 0 := by
    have : 0 < valid.length := h1
    positivity
  rw [fl_div_fin_fin _ _ hn0]
  rfl

/-- With at least two observations, the IEEE sample variance of the valid
ICs equals the exact `sampleVarQ`. -/
theorem fl_variance_eq (valid : List ℚ) (h2 : 2 ≤ valid.length) :
    Fl.div
      (Fl.fsum (valid.map (fun ic => Fl.sq (Fl.sub (Fl.fin ic)
        (Fl.div (Fl.fin valid.sum) (Fl.fin (valid.length : ℚ)))))))
      (Fl.fin ((valid.length - 1 : ℕ) : ℚ)) = Fl.fin (sampleVarQ valid) := by
  rw [fl_mean_eq valid (by omega)]
  have hmap : valid.map
      (fun ic => Fl.sq (Fl.sub (Fl.fin ic) (Fl.fin (sampleMeanQ valid)))) =
      (valid.map (fun ic => (ic - sampleMeanQ valid) ^ 2)).map Fl.fin := by
    rw [List.map_map]
    apply List.map_congr_left
    intro ic _
    simp [Fl.sq, Fl.mul, Fl.sub, Fl.add, Fl.neg, pow_two, sub_eq_add_neg]
  rw [hmap, Fl.fsum_map_fin]
  have hd : (((valid.length - 1 : ℕ)) : ℚ) ≠ 0 := by
    have : 0 < valid.length - 1 := by omega
    positivity
  rw [fl_div_fin_fin _ _ hd]
  unfold sampleVarQ
  rw [if_pos (by omega)]
  congr 1
  have : ((valid.length - 1 : ℕ) : ℚ) = (valid.length : ℚ) - 1 := by
    have h1 : 1 ≤ valid.length := by omega
    push_cast [Nat.cast_sub h1]
    ring
  rw [this]

/-- claim C9 (amended): below `min_observations` both the mean IC and the
IR are NaN; at or above it the mean IC is the exact mean of the finite ICs
whenever at least one exists (with no finite ICs — possible only when
`min_observations = 0` — the `0/0` quotient makes it NaN), and with a
strictly positive sample variance the IR is `mean/√variance`, multiplied
by `√trading_days_per_year` when `annualize`; but when the sample variance
is zero (or there are fewer than 2 finite ICs, making the `0/0` variance
NaN), the IR is NaN rather than the claimed `mean/stdev` value. -/
theorem claim_C9_information_ratio_amended (ic_series : List F)
    (config : MetricsConfig) :
    ((finiteVals ic_series).length < config.min_observations →
      (informationRatioCalculate ic_series config).mean_ic = Fl.nan ∧
        (informationRatioCalculate ic_series config).ir = Fl.nan)
    ∧ (¬ (finiteVals ic_series).length < config.min_observations →
        1 ≤ (finiteVals ic_series).length →
        (informationRatioCalculate ic_series config).mean_ic =
          Fl.fin (sampleMeanQ (finiteVals ic_series)))
    ∧ (¬ (finiteVals ic_series).length < config.min_observations →
        (finiteVals ic_series).length = 0 →
        (informationRatioCalculate ic_series config).mean_ic = Fl.nan)
    ∧ (¬ (finiteVals ic_series).length < config.min_observations →
        2 ≤ (finiteVals ic_series).length →
        0 < sampleVarQ (finiteVals ic_series) →
        (informationRatioCalculate ic_series config).mean_ic =
          Fl.fin (sampleMeanQ (finiteVals ic_series)) ∧
        (informationRatioCalculate ic_series config).ir =
          Fl.fin (((sampleMeanQ (finiteVals ic_series) : ℝ) /
              Real.sqrt ((sampleVarQ (finiteVals ic_series) : ℚ) : ℝ)) *
            (if config.annualize then
              Real.sqrt ((config.trading_days_per_year : ℕ) : ℝ) else 1)))
    ∧ (¬ (finiteVals ic_series).length < config.min_observations →
        ((finiteVals ic_series).length ≤ 1 ∨
          sampleVarQ (finiteVals ic_series) = 0) →
        (informationRatioCalculate ic_series config).ir = Fl.nan) := by
  refine ⟨?_, ?_, ?_, ?_, ?_⟩
  · intro h
    unfold informationRatioCalculate
    rw [if_pos h]
    exact ⟨rfl, rfl⟩
  · intro hmin h1
    unfold informationRatioCalculate
    rw [if_neg hmin]
    dsimp only
    rw [fl_mean_eq _ h1]
  · intro hmin h0
    have he : finiteVals ic_series = [] := List.length_eq_zero.mp h0
    rw [he] at hmin
    unfold informationRatioCalculate
    rw [he, if_neg hmin]
    dsimp only
    norm_num [Fl.div]
  · intro hmin h2 hvar
    unfold informationRatioCalculate
    rw [if_neg hmin]
    dsimp only
    rw [fl_variance_eq _ h2, fl_mean_eq _ (by omega)]
    refine ⟨rfl, ?_⟩
    have hgz : sqrtGtZeroB (Fl.fin (sampleVarQ (finiteVals ic_series))) = true := by
      simp [sqrtGtZeroB, decide_eq_true_eq, hvar]
    rw [if_pos hgz]
    have hnn : ¬ (((sampleVarQ (finiteVals ic_series) : ℚ) : ℝ) < 0) :=
      not_lt.mpr (by exact_mod_cast le_of_lt hvar)
    have hs : (0 : ℝ) < Real.sqrt ((sampleVarQ (finiteVals ic_series) : ℚ) : ℝ) := by
      rw [Real.sqrt_pos]; exact_mod_cast hvar
    simp only [toR, sqrtR]
    rw [if_neg hnn]
    cases hb : config.annualize
    · simp only [hb, Bool.false_eq_true, if_false]
      rw [fl_div_fin_fin _ _ (ne_of_gt hs)]
      norm_num
    · simp only [hb, if_true]
      rw [fl_div_fin_fin _ _ (ne_of_gt hs)]
      simp [Fl.mul]
  · intro hmin hdeg
    unfold informationRatioCalculate
    rw [if_neg hmin]
    dsimp only
    rcases Nat.lt_or_ge (finiteVals ic_series).length 2 with hlt | hge
    · -- 0 or 1 finite ICs: the f64 variance is 0/0 = NaN
      have hnan : Fl.div
          (Fl.fsum ((finiteVals ic_series).map
            (fun ic => Fl.sq (Fl.sub (Fl.fin ic)
              (Fl.div (Fl.fin (finiteVals ic_series).sum)
                (Fl.fin ((finiteVals ic_series).length : ℚ)))))))
          (Fl.fin (((finiteVals ic_series).length - 1 : ℕ) : ℚ)) = Fl.nan := by
        obtain h0 | h1 : (finiteVals ic_series).length = 0 ∨
            (finiteVals ic_series).length = 1 := by omega
        · rw [List.length_eq_zero.mp h0]
          simp [Fl.fsum, Fl.div]
        · obtain ⟨a, ha⟩ := List.length_eq_one.mp h1
          rw [ha]
          simp only [List.length_cons, List.length_nil, List.map_cons, List.map_nil,
            List.sum_cons, List.sum_nil]
          norm_num
          rw [fl_div_fin_fin a 1 (by norm_num)]
          simp only [Fl.sub, Fl.add, Fl.neg, Fl.sq, Fl.mul, Fl.fsum, List.foldl]
          norm_num [Fl.add, Fl.div]
      rw [hnan]
      rfl
    · have hzero : sampleVarQ (finiteVals ic_series) = 0 := by
        rcases hdeg with h | h
        · omega
        · exact h
      rw [fl_variance_eq _ hge, hzero]
      rw [if_neg (by simp [sqrtGtZeroB])]

theorem finiteVals_replicate_fin (n : ℕ) (q : ℚ) :
    finiteVals (List.replicate n (Fl.fin q)) = List.replicate n q := by
  induction n with
  | zero => rfl
  | succ k ih =>
      simp only [finiteVals] at ih ⊢
      simp [List.replicate_succ, List.filterMap_cons, Fl.isFinite, Fl.toVal, ih]

/-- claim C9, counterexample: twenty identical finite ICs of value 1/20
meet the default `min_observations = 20`, the mean IC is 1/20 and the IC
stdev is 0; the source returns `ir = NaN`, while the claimed formula
`mean/stdev · √252` evaluates to `+∞` in IEEE arithmetic. -/
theorem claim_C9_counterexample :
    (informationRatioCalculate (List.replicate 20 (Fl.fin (1 / 20)))
        ⟨20, 21, true, 252⟩).mean_ic = Fl.fin (1 / 20)
    ∧ (informationRatioCalculate (List.replicate 20 (Fl.fin (1 / 20)))
        ⟨20, 21, true, 252⟩).std_ic = Fl.fin 0
    ∧ (informationRatioCalculate (List.replicate 20 (Fl.fin (1 / 20)))
        ⟨20, 21, true, 252⟩).ir = Fl.nan
    ∧ irSpecC9 (Fl.fin ((1 : ℝ) / 20)) (Fl.fin 0) ⟨20, 21, true, 252⟩ = Fl.pinf
    ∧ (Fl.nan : Fl ℝ) ≠ Fl.pinf := by
  have hfv : finiteVals (List.replicate 20 (Fl.fin ((1 : ℚ) / 20))) =
      List.replicate 20 ((1 : ℚ) / 20) := finiteVals_replicate_fin 20 (1 / 20)
  have hmean : sampleMeanQ (List.replicate 20 ((1 : ℚ) / 20)) = 1 / 20 := by
    simp [sampleMeanQ, List.sum_replicate, nsmul_eq_mul]
    norm_num
  have hvar : sampleVarQ (List.replicate 20 ((1 : ℚ) / 20)) = 0 := by
    unfold sampleVarQ
    rw [if_pos (by norm_num)]
    rw [List.map_replicate, hmean]
    norm_num [List.sum_replicate]
  have hlen : (List.replicate 20 ((1 : ℚ) / 20)).length = 20 := by simp
  refine ⟨?_, ?_, ?_, ?_, fun h => Fl.noConfusion h⟩
  · unfold informationRatioCalculate
    rw [hfv, if_neg (by rw [hlen]; norm_num)]
    dsimp only
    rw [fl_mean_eq _ (by rw [hlen]; norm_num), hmean]
  · unfold informationRatioCalculate
    rw [hfv, if_neg (by rw [hlen]; norm_num)]
    dsimp only
    rw [fl_variance_eq _ (by rw [hlen]; norm_num), hvar]
    simp only [toR, sqrtR]
    rw [if_neg (by norm_num)]
    norm_num [Real.sqrt_zero]
  · unfold informationRatioCalculate
    rw [hfv, if_neg (by rw [hlen]; norm_num)]
    dsimp only
    rw [fl_variance_eq _ (by rw [hlen]; norm_num), hvar]
    rw [if_neg (by simp [sqrtGtZeroB])]
  · unfold irSpecC9
    rw [if_pos rfl]
    have hdiv : Fl.div (Fl.fin ((1 : ℝ) / 20)) (Fl.fin 0) = Fl.pinf := by
      show (if (0 : ℝ) = 0 then
          (if (1 : ℝ) / 20 = 0 then Fl.nan
           else if 0 < (1 : ℝ) / 20 then Fl.pinf else Fl.ninf)
        else Fl.fin ((1 : ℝ) / 20 / 0)) = Fl.pinf
      rw [if_pos rfl, if_neg (by norm_num), if_pos (by norm_num)]
    rw [hdiv]
    have hsq : (0 : ℝ) < Real.sqrt ((252 : ℕ) : ℝ) := by
      rw [Real.sqrt_pos]; norm_num
    show (if Real.sqrt ((252 : ℕ) : ℝ) = 0 then Fl.nan
        else if 0 < Real.sqrt ((252 : ℕ) : ℝ) then Fl.pinf else Fl.ninf) = Fl.pinf
    rw [if_neg (ne_of_gt hsq), if_pos hsq]

/-- claim C9, witness: two finite ICs `[0, 0.1]` with `min_observations = 2`
and `annualize = false`; the variance is 1/200 > 0 and the amended theorem
produces the exact mean and IR. -/
theorem claim_C9_witness :
    (¬ (finiteVals [Fl.fin 0, Fl.fin (1 / 10)]).length < 2) ∧
    2 ≤ (finiteVals [Fl.fin 0, Fl.fin (1 / 10)]).length ∧
    0 < sampleVarQ (finiteVals [Fl.fin 0, Fl.fin (1 / 10)]) ∧
    ((informationRatioCalculate [Fl.fin 0, Fl.fin (1 / 10)] ⟨2, 21, false, 252⟩).mean_ic =
        Fl.fin (sampleMeanQ (finiteVals [Fl.fin 0, Fl.fin (1 / 10)])) ∧
      (informationRatioCalculate [Fl.fin 0, Fl.fin (1 / 10)] ⟨2, 21, false, 252⟩).ir =
        Fl.fin (((sampleMeanQ (finiteVals [Fl.fin 0, Fl.fin (1 / 10)]) : ℝ) /
            Real.sqrt ((sampleVarQ (finiteVals [Fl.fin 0, Fl.fin (1 / 10)]) : ℚ) : ℝ)) *
          (if (false : Bool) then Real.sqrt ((252 : ℕ) : ℝ) else 1))) := by
  have hfv : finiteVals [Fl.fin 0, Fl.fin ((1 : ℚ) / 10)] = [0, 1 / 10] := by
    norm_num [finiteVals, List.filterMap, Fl.isFinite, Fl.toVal]
  have h1 : ¬ (finiteVals [Fl.fin 0, Fl.fin ((1 : ℚ) / 10)]).length < 2 := by
    rw [hfv]; norm_num
  have h2 : 2 ≤ (finiteVals [Fl.fin 0, Fl.fin ((1 : ℚ) / 10)]).length := by
    rw [hfv]; norm_num
  have h3 : 0 < sampleVarQ (finiteVals [Fl.fin 0, Fl.fin ((1 : ℚ) / 10)]) := by
    rw [hfv]
    norm_num [sampleVarQ, sampleMeanQ]
  exact ⟨h1, h2, h3,
    (claim_C9_information_ratio_amended [Fl.fin 0, Fl.fin (1 / 10)]
      ⟨2, 21, false, 252⟩).2.2.2.1 h1 h2 h3⟩

/-! ## Claim C4: NaN raw momentum is not dropped -/

theorem map_sq_sub_nan (l : List F) :
    l.map (fun x => Fl.sq (Fl.sub x Fl.nan)) = List.replicate l.length Fl.nan := by
  have h : l.map (fun x => Fl.sq (Fl.sub x Fl.nan)) = l.map (fun _ => Fl.nan) := by
    apply List.map_congr_left
    intro x _
    cases x <;> rfl
  rw [h, List.map_const']

theorem fsum_replicate_nan {n : ℕ} (h : 0 < n) :
    Fl.fsum (List.replicate n (Fl.nan : F)) = Fl.nan :=
  Fl.fsum_eq_nan_of_mem (by simp [List.mem_replicate]; omega)

/-- claim C4 (amended): in `ShortTermMomentum::score`, a symbol whose raw
momentum is NaN is *not* dropped: it stays in the output, its NaN poisons
the cross-sectional mean and variance so the `std > 1e-10` test fails, and
every retained symbol — the NaN one included — receives the score 0.  The
call still succeeds (no whole-call failure). -/
theorem claim_C4_nan_poisons_scores (cfg : ShortTermMomentumConfig)
    (rows : List PanelRow) (date : ℤ)
    (hne : ShortTermMomentum.computeMomentums cfg rows date ≠ [])
    (hnan : Fl.nan ∈ (ShortTermMomentum.computeMomentums cfg rows date).map Prod.snd) :
    ShortTermMomentum.score cfg rows date = Except.ok
      (((ShortTermMomentum.computeMomentums cfg rows date).map Prod.fst).zip
        (List.replicate
          (ShortTermMomentum.computeMomentums cfg rows date).length (Fl.fin 0))) := by
  have hflt : ¬ (rows.filter (fun r => r.date ≤ date)).isEmpty = true := by
    intro hemp
    apply hne
    unfold ShortTermMomentum.computeMomentums
    rw [List.isEmpty_iff.mp hemp]
    rfl
  have hres : ¬ (ShortTermMomentum.computeMomentums cfg rows date).isEmpty = true := by
    intro hemp
    exact hne (List.isEmpty_iff.mp hemp)
  have hlenpos : 0 < (ShortTermMomentum.computeMomentums cfg rows date).length :=
    List.length_pos.mpr hne
  unfold ShortTermMomentum.score
  rw [if_neg hflt, if_neg hres]
  dsimp only
  have hsum : Fl.fsum ((ShortTermMomentum.computeMomentums cfg rows date).map Prod.snd) =
      Fl.nan := Fl.fsum_eq_nan_of_mem hnan
  simp only [hsum, Fl.nan_div]
  simp only [map_sq_sub_nan, List.length_map]
  simp only [fsum_replicate_nan hlenpos, Fl.nan_div]
  rw [if_neg (by simp [sqrtGtB])]

/-- claim C4, counterexample: with lookback 1, symbol A has closes `[0, 0]`
(raw momentum `0/0 − 1 = NaN`) and symbol B has closes `[1, 2]` (raw 1.0);
the claim says A is dropped and contributes no row, but the call returns
rows for both A and B, each with score 0. -/
theorem claim_C4_counterexample :
    (ShortTermMomentum.computeMomentums ⟨1⟩
        [⟨"A", 1, some (Fl.fin 0)⟩, ⟨"A", 2, some (Fl.fin 0)⟩,
         ⟨"B", 1, some (Fl.fin 1)⟩, ⟨"B", 2, some (Fl.fin 2)⟩] 2).map Prod.snd
      = [Fl.nan, Fl.fin 1]
    ∧ ShortTermMomentum.score ⟨1⟩
        [⟨"A", 1, some (Fl.fin 0)⟩, ⟨"A", 2, some (Fl.fin 0)⟩,
         ⟨"B", 1, some (Fl.fin 1)⟩, ⟨"B", 2, some (Fl.fin 2)⟩] 2
      = Except.ok [("A", Fl.fin 0), ("B", Fl.fin 0)]
    ∧ "A" ∈ ["A", "B"] := by
  refine ⟨?_, ?_, by simp⟩
  · norm_num [ShortTermMomentum.computeMomentums, uniqueKeepFirst, uniqueKeepFirstAux,
      List.filter, List.insertionSort, List.orderedInsert, List.filterMap,
      Fl.isFinite, Fl.toVal, Fl.div, Fl.sub, Fl.add, Fl.neg]
  · norm_num [ShortTermMomentum.score, ShortTermMomentum.computeMomentums,
      uniqueKeepFirst, uniqueKeepFirstAux,
      List.filter, List.insertionSort, List.orderedInsert, List.filterMap,
      Fl.isFinite, Fl.toVal, Fl.div, Fl.sub, Fl.add, Fl.neg, Fl.sq, Fl.mul,
      Fl.fsum, sqrtGtB, List.foldl, List.replicate, List.zip, List.zipWith, toR]

/-- claim C4, witness: the amended theorem applied to the same panel. -/
theorem claim_C4_witness :
    ShortTermMomentum.score ⟨1⟩
        [⟨"A", 1, some (Fl.fin 0)⟩, ⟨"A", 2, some (Fl.fin 0)⟩,
         ⟨"B", 1, some (Fl.fin 1)⟩, ⟨"B", 2, some (Fl.fin 2)⟩] 2
      = Except.ok
        (((ShortTermMomentum.computeMomentums ⟨1⟩
            [⟨"A", 1, some (Fl.fin 0)⟩, ⟨"A", 2, some (Fl.fin 0)⟩,
             ⟨"B", 1, some (Fl.fin 1)⟩, ⟨"B", 2, some (Fl.fin 2)⟩] 2).map Prod.fst).zip
          (List.replicate
            (ShortTermMomentum.computeMomentums ⟨1⟩
              [⟨"A", 1, some (Fl.fin 0)⟩, ⟨"A", 2, some (Fl.fin 0)⟩,
               ⟨"B", 1, some (Fl.fin 1)⟩, ⟨"B", 2, some (Fl.fin 2)⟩] 2).length
            (Fl.fin 0))) := by
  have hm : (ShortTermMomentum.computeMomentums ⟨1⟩
      [⟨"A", 1, some (Fl.fin 0)⟩, ⟨"A", 2, some (Fl.fin 0)⟩,
       ⟨"B", 1, some (Fl.fin 1)⟩, ⟨"B", 2, some (Fl.fin 2)⟩] 2) =
      [("A", Fl.nan), ("B", Fl.fin 1)] := by
    norm_num [ShortTermMomentum.computeMomentums, uniqueKeepFirst, uniqueKeepFirstAux,
      List.filter, List.insertionSort, List.orderedInsert, List.filterMap,
      Fl.isFinite, Fl.toVal, Fl.div, Fl.sub, Fl.add, Fl.neg]
  exact claim_C4_nan_poisons_scores ⟨1⟩ _ 2
    (by rw [hm]; exact List.cons_ne_nil _ _)
    (by rw [hm]; simp)

/-! ## Claims C1 and C7: winsorization -/

theorem clipQ_eq_clamp {lb ub : ℚ} (h : lb ≤ ub) (v : ℚ) :
    clipQ lb ub v = max lb (min ub v) := by
  unfold clipQ
  split_ifs with h1 h2
  · rw [min_eq_right (le_trans (le_of_lt h1) h), max_eq_left (le_of_lt h1)]
  · rw [min_eq_left (le_of_lt h2), max_eq_right h]
  · rw [min_eq_right (not_lt.mp h2), max_eq_right (not_lt.mp h1)]

theorem clipQ_mono {lb ub : ℚ} (h : lb ≤ ub) {a b : ℚ} (hab : a ≤ b) :
    clipQ lb ub a ≤ clipQ lb ub b := by
  rw [clipQ_eq_clamp h, clipQ_eq_clamp h]
  exact max_le_max (le_refl lb) (min_le_min (le_refl ub) hab)

theorem clipQ_mem_lower {lb ub : ℚ} (h : lb ≤ ub) (v : ℚ) : lb ≤ clipQ lb ub v := by
  rw [clipQ_eq_clamp h]; exact le_max_left _ _

theorem clipQ_mem_upper {lb ub : ℚ} (h : lb ≤ ub) (v : ℚ) : clipQ lb ub v ≤ ub := by
  rw [clipQ_eq_clamp h]
  exact max_le h (min_le_left _ _)

theorem clipQ_of_mem {lb ub v : ℚ} (h1 : lb ≤ v) (h2 : v ≤ ub) : clipQ lb ub v = v := by
  unfold clipQ
  rw [if_neg (not_lt.mpr h1), if_neg (not_lt.mpr h2)]

theorem clipQ_idem {lb ub : ℚ} (h : lb ≤ ub) (v : ℚ) :
    clipQ lb ub (clipQ lb ub v) = clipQ lb ub v :=
  clipQ_of_mem (clipQ_mem_lower h v) (clipQ_mem_upper h v)

/-- The winsorization index picks are ordered and in range: with
`0 ≤ p < 1/2` and `1 ≤ n`, `floor(n·p) ≤ min(ceil(n·(1−p)), n−1) ≤ n − 1`. -/
theorem winsorize_idx_le {p : ℚ} (hp0 : 0 ≤ p) (hp1 : p < 1 / 2) {n : ℕ} (hn : 1 ≤ n) :
    (Int.floor ((n : ℚ) * p)).toNat ≤
        min (Int.ceil ((n : ℚ) * (1 - p))).toNat (n - 1) ∧
      min (Int.ceil ((n : ℚ) * (1 - p))).toNat (n - 1) ≤ n - 1 := by
  refine ⟨le_min ?_ ?_, min_le_right _ _⟩
  · -- floor(n·p) ≤ ceil(n·(1−p))
    apply Int.toNat_le_toNat
    apply le_trans (Int.floor_le_ceil _)
    apply Int.ceil_le_ceil
    have hnn : (0 : ℚ) ≤ (n : ℚ) := by positivity
    nlinarith
  · -- floor(n·p) ≤ n − 1
    have h1 : Int.floor ((n : ℚ) * p) < (n : ℤ) := by
      apply Int.floor_lt.mpr
      have hn1 : (1 : ℚ) ≤ (n : ℚ) := by exact_mod_cast hn
      push_cast
      nlinarith
    omega

/-- The per-entry clipping function of the winsorization loop, on a finite
entry, is `clipQ`. -/
theorem winsorize_entry_fin (lb ub q : ℚ) :
    (if (Fl.fin q : F).isFinite then
      if (Fl.fin q : F).toVal < lb then Fl.fin lb
      else if ub < (Fl.fin q : F).toVal then Fl.fin ub
      else Fl.fin q
     else Fl.fin q) = Fl.fin (clipQ lb ub q) := by
  simp only [Fl.isFinite, Fl.toVal, if_pos]
  unfold clipQ
  split_ifs <;> rfl

theorem finiteVals_cons_fin (q : ℚ) (l : List F) :
    finiteVals (Fl.fin q :: l) = q :: finiteVals l := rfl

theorem finiteVals_cons_nan (l : List F) :
    finiteVals (Fl.nan :: l) = finiteVals l := rfl

theorem finiteVals_cons_pinf (l : List F) :
    finiteVals (Fl.pinf :: l) = finiteVals l := rfl

theorem finiteVals_cons_ninf (l : List F) :
    finiteVals (Fl.ninf :: l) = finiteVals l := rfl

theorem finiteVals_map_clip (lb ub : ℚ) (values : List F) :
    finiteVals (values.map (fun v =>
      if v.isFinite then
        if v.toVal < lb then Fl.fin lb
        else if ub < v.toVal then Fl.fin ub
        else v
      else v)) = (finiteVals values).map (clipQ lb ub) := by
  induction values with
  | nil => rfl
  | cons x xs ih =>
      rw [List.map_cons]
      cases x with
      | fin q =>
          rw [winsorize_entry_fin lb ub q, finiteVals_cons_fin, finiteVals_cons_fin,
            List.map_cons, ih]
      | nan =>
          rw [show (if (Fl.nan : F).isFinite then
              if (Fl.nan : F).toVal < lb then Fl.fin lb
              else if ub < (Fl.nan : F).toVal then Fl.fin ub
              else Fl.nan
            else (Fl.nan : F)) = Fl.nan from rfl]
          rw [finiteVals_cons_nan, finiteVals_cons_nan, ih]
      | pinf =>
          rw [show (if (Fl.pinf : F).isFinite then
              if (Fl.pinf : F).toVal < lb then Fl.fin lb
              else if ub < (Fl.pinf : F).toVal then Fl.fin ub
              else Fl.pinf
            else (Fl.pinf : F)) = Fl.pinf from rfl]
          rw [finiteVals_cons_pinf, finiteVals_cons_pinf, ih]
      | ninf =>
          rw [show (if (Fl.ninf : F).isFinite then
              if (Fl.ninf : F).toVal < lb then Fl.fin lb
              else if ub < (Fl.ninf : F).toVal then Fl.fin ub
              else Fl.ninf
            else (Fl.ninf : F)) = Fl.ninf from rfl]
          rw [finiteVals_cons_ninf, finiteVals_cons_ninf, ih]

/-- Sorting the clipped values is clipping the sorted values: `clipQ` is
monotone, so the image of the sorted list is sorted, and sorted
permutations agree. -/
theorem insertionSort_map_clip {lb ub : ℚ} (h : lb ≤ ub) (l : List ℚ) :
    (l.map (clipQ lb ub)).insertionSort (fun a b => a ≤ b) =
      (l.insertionSort (fun a b => a ≤ b)).map (clipQ lb ub) := by
  refine List.eq_of_perm_of_sorted (r := fun a b : ℚ => a ≤ b) ?_ ?_ ?_
  · exact (List.perm_insertionSort _ _).trans
      (((List.perm_insertionSort _ l).symm).map _)
  · exact List.sorted_insertionSort _ _
  · exact List.Pairwise.map _ (fun a b hab => clipQ_mono h hab)
      (List.sorted_insertionSort _ l)

theorem sorted_getD_le {s : List ℚ} (h : List.Sorted (fun a b : ℚ => a ≤ b) s)
    {i j : ℕ} (hij : i ≤ j) (hj : j < s.length) : s.getD i 0 ≤ s.getD j 0 := by
  have hi : i < s.length := lt_of_le_of_lt hij hj
  rw [List.getD_eq_getElem?_getD, List.getD_eq_getElem?_getD,
    List.getElem?_eq_getElem hi, List.getElem?_eq_getElem hj]
  simp only [Option.getD_some]
  exact List.Sorted.rel_get_of_le h (by exact hij)

theorem getD_map_clip (lb ub : ℚ) (l : List ℚ) {i : ℕ} (hi : i < l.length) :
    (l.map (clipQ lb ub)).getD i 0 = clipQ lb ub (l.getD i 0) := by
  rw [List.getD_eq_getElem?_getD, List.getD_eq_getElem?_getD,
    List.getElem?_map, List.getElem?_eq_getElem hi]
  simp only [Option.map_some', Option.getD_some]

/-- The ascending-sorted finite entries used by `winsorize`. -/
def winsorSorted (values : List F) : List ℚ :=
  (finiteVals values).insertionSort (fun a b => a ≤ b)

/-- `n`, the number of finite entries. -/
def winsorN (values : List F) : ℕ := (winsorSorted values).length

/-- The lower index pick `floor(n·p)` (cast `as usize`). -/
def winsorLowerIdx (values : List F) (p : ℚ) : ℕ :=
  (Int.floor ((winsorN values : ℚ) * p)).toNat

/-- The upper index pick `min(ceil(n·(1−p)), n−1)`. -/
def winsorUpperIdx (values : List F) (p : ℚ) : ℕ :=
  min (Int.ceil ((winsorN values : ℚ) * (1 - p))).toNat (winsorN values - 1)

/-- The lower clipping bound. -/
def winsorLB (values : List F) (p : ℚ) : ℚ :=
  (winsorSorted values).getD (winsorLowerIdx values p) 0

/-- The upper clipping bound. -/
def winsorUB (values : List F) (p : ℚ) : ℚ :=
  (winsorSorted values).getD (winsorUpperIdx values p) 0

/-- `winsorize` with the flag off, or with no finite entries, returns the
input unchanged. -/
theorem winsorize_eq_of_no_finite (cfg : BookToPriceConfig) (values : List F)
    (hfe : finiteVals values = []) :
    BookToPrice.winsorize cfg values = values := by
  unfold BookToPrice.winsorize
  split
  · rfl
  · dsimp only
    rw [if_pos (by simp [hfe])]

theorem winsorize_eq_of_flag_off (cfg : BookToPriceConfig) (values : List F)
    (hflag : cfg.winsorize = false) :
    BookToPrice.winsorize cfg values = values := by
  unfold BookToPrice.winsorize
  rw [if_pos (by simp [hflag])]

/-- On the main path, `winsorize` is the per-entry clipping map at the
bounds read from the sorted finite entries. -/
theorem winsorize_eq_map (cfg : BookToPriceConfig) (values : List F)
    (hflag : cfg.winsorize = true) (hfe : finiteVals values ≠ []) :
    BookToPrice.winsorize cfg values = values.map (fun v =>
      if v.isFinite then
        if v.toVal < winsorLB values cfg.winsorize_pct then
          Fl.fin (winsorLB values cfg.winsorize_pct)
        else if winsorUB values cfg.winsorize_pct < v.toVal then
          Fl.fin (winsorUB values cfg.winsorize_pct)
        else v
      else v) := by
  have hvne : values ≠ [] := by
    intro h; subst h; exact hfe rfl
  unfold BookToPrice.winsorize
  rw [if_neg (by simp [hflag, List.isEmpty_iff, hvne])]
  dsimp only
  rw [if_neg (by simp [hfe])]
  rfl

/-- claim C7: winsorization is idempotent — for `p ∈ [0, 1/2)`, applying
`winsorize` twice at the same `p` yields the same vector as applying it
once. -/
theorem claim_C7_winsorize_idempotent (cfg : BookToPriceConfig)
    (hp0 : 0 ≤ cfg.winsorize_pct) (hp1 : cfg.winsorize_pct < 1 / 2)
    (values : List F) :
    BookToPrice.winsorize cfg (BookToPrice.winsorize cfg values) =
      BookToPrice.winsorize cfg values := by
  rcases hflag : cfg.winsorize with _ | _
  · rw [winsorize_eq_of_flag_off cfg values hflag,
      winsorize_eq_of_flag_off cfg values hflag]
  · by_cases hfe : finiteVals values = []
    · rw [winsorize_eq_of_no_finite cfg values hfe,
        winsorize_eq_of_no_finite cfg values hfe]
    · set p := cfg.winsorize_pct with hp
      set lb := winsorLB values p with hlb
      set ub := winsorUB values p with hub
      have hn1 : 1 ≤ winsorN values := by
        unfold winsorN winsorSorted
        rw [(List.perm_insertionSort _ _).length_eq]
        exact List.length_pos.mpr hfe
      obtain ⟨hle, hubnd⟩ := winsorize_idx_le hp0 hp1 hn1
      have hui_lt : winsorUpperIdx values p < winsorN values := by
        unfold winsorUpperIdx
        omega
      have hli_le_ui : winsorLowerIdx values p ≤ winsorUpperIdx values p := hle
      have hsorted : List.Sorted (fun a b : ℚ => a ≤ b) (winsorSorted values) :=
        List.sorted_insertionSort _ _
      have hlbub : lb ≤ ub :=
        sorted_getD_le hsorted hli_le_ui hui_lt
      rw [winsorize_eq_map cfg values hflag hfe]
      have hfin_o := finiteVals_map_clip lb ub values
      have hfe_o : finiteVals (values.map (fun v =>
          if v.isFinite then
            if v.toVal < lb then Fl.fin lb
            else if ub < v.toVal then Fl.fin ub
            else v
          else v)) ≠ [] := by
        rw [hfin_o]
        simp [hfe]
      rw [winsorize_eq_map cfg _ hflag hfe_o]
      have hsorted_o : winsorSorted (values.map (fun v =>
          if v.isFinite then
            if v.toVal < lb then Fl.fin lb
            else if ub < v.toVal then Fl.fin ub
            else v
          else v)) = (winsorSorted values).map (clipQ lb ub) := by
        unfold winsorSorted
        rw [hfin_o, insertionSort_map_clip hlbub]
      have hn_o : winsorN (values.map (fun v =>
          if v.isFinite then
            if v.toVal < lb then Fl.fin lb
            else if ub < v.toVal then Fl.fin ub
            else v
          else v)) = winsorN values := by
        unfold winsorN
        rw [hsorted_o, List.length_map]
      have hli_o : winsorLowerIdx (values.map (fun v =>
          if v.isFinite then
            if v.toVal < lb then Fl.fin lb
            else if ub < v.toVal then Fl.fin ub
            else v
          else v)) p = winsorLowerIdx values p := by
        unfold winsorLowerIdx
        rw [hn_o]
      have hui_o : winsorUpperIdx (values.map (fun v =>
          if v.isFinite then
            if v.toVal < lb then Fl.fin lb
            else if ub < v.toVal then Fl.fin ub
            else v
          else v)) p = winsorUpperIdx values p := by
        unfold winsorUpperIdx
        rw [hn_o]
      have hlb_o : winsorLB (values.map (fun v =>
          if v.isFinite then
            if v.toVal < lb then Fl.fin lb
            else if ub < v.toVal then Fl.fin ub
            else v
          else v)) p = lb := by
        unfold winsorLB
        rw [hsorted_o, hli_o,
          getD_map_clip lb ub _ (lt_of_le_of_lt hli_le_ui hui_lt)]
        exact clipQ_of_mem (le_refl lb) hlbub
      have hub_o : winsorUB (values.map (fun v =>
          if v.isFinite then
            if v.toVal < lb then Fl.fin lb
            else if ub < v.toVal then Fl.fin ub
            else v
          else v)) p = ub := by
        unfold winsorUB
        rw [hsorted_o, hui_o, getD_map_clip lb ub _ hui_lt]
        exact clipQ_of_mem hlbub (le_refl ub)
      rw [hlb_o, hub_o, List.map_map]
      apply List.map_congr_left
      intro v _
      simp only [Function.comp_apply]
      cases v with
      | fin q =>
          rw [winsorize_entry_fin lb ub q,
            winsorize_entry_fin lb ub (clipQ lb ub q), clipQ_idem hlbub]
      | nan => rfl
      | pinf => rfl
      | ninf => rfl

/-- claim C7, witness: a concrete double application at `p = 1/4`. -/
theorem claim_C7_witness :
    (0 : ℚ) ≤ 1 / 4 ∧ (1 / 4 : ℚ) < 1 / 2 ∧
    BookToPrice.winsorize ⟨true, 1 / 4⟩
        (BookToPrice.winsorize ⟨true, 1 / 4⟩ [Fl.fin 1, Fl.fin 5, Fl.fin 2]) =
      BookToPrice.winsorize ⟨true, 1 / 4⟩ [Fl.fin 1, Fl.fin 5, Fl.fin 2] :=
  ⟨by norm_num, by norm_num,
    claim_C7_winsorize_idempotent ⟨true, 1 / 4⟩ (by norm_num) (by norm_num) _⟩

/-- The winsorization bounds are ordered for `p ∈ [0, 1/2)`. -/
theorem winsorLB_le_winsorUB (values : List F) (p : ℚ)
    (hp0 : 0 ≤ p) (hp1 : p < 1 / 2) (hfe : finiteVals values ≠ []) :
    winsorLB values p ≤ winsorUB values p := by
  have hn1 : 1 ≤ winsorN values := by
    unfold winsorN winsorSorted
    rw [(List.perm_insertionSort _ _).length_eq]
    exact List.length_pos.mpr hfe
  obtain ⟨hle, hubnd⟩ := winsorize_idx_le hp0 hp1 hn1
  have hui_lt : winsorUpperIdx values p < winsorN values := by
    unfold winsorUpperIdx
    omega
  exact sorted_getD_le (List.sorted_insertionSort _ _) hle hui_lt

/-- claim C1 (amended): with the flag on, `p ∈ [0, 1/2)` and at least one
finite entry, `winsorize` clamps each finite entry to the bounds read from
the ascending-sorted finite entries at indices `floor(n·p)` and
`min(ceil(n·(1−p)), n−1)` — the upper pick is `ceil(n·(1−p))` clamped to
`n−1`, not `ceil(n·(1−p)) − 1` — and non-finite entries pass through. -/
theorem claim_C1_winsorize_clamps (cfg : BookToPriceConfig) (values : List F)
    (hflag : cfg.winsorize = true)
    (hp0 : 0 ≤ cfg.winsorize_pct) (hp1 : cfg.winsorize_pct < 1 / 2)
    (hfe : finiteVals values ≠ []) :
    (BookToPrice.winsorize cfg values).length = values.length ∧
    ∀ (i : ℕ) (x : F), values[i]? = some x →
      (BookToPrice.winsorize cfg values)[i]? = some
        (if x.isFinite then
          Fl.fin (max (winsorLB values cfg.winsorize_pct)
            (min (winsorUB values cfg.winsorize_pct) x.toVal))
        else x) := by
  have hlbub := winsorLB_le_winsorUB values cfg.winsorize_pct hp0 hp1 hfe
  rw [winsorize_eq_map cfg values hflag hfe]
  refine ⟨List.length_map _ _, ?_⟩
  intro i x hx
  simp only [List.getElem?_map, hx, Option.map_some']
  cases x with
  | fin q =>
      rw [winsorize_entry_fin _ _ q, clipQ_eq_clamp hlbub]
      rfl
  | nan => rfl
  | pinf => rfl
  | ninf => rfl

/-- claim C1, counterexample: at `p = 1/4` on the eight finite values
`1..8` we have `n = 8`, `floor(n·p) = 2` and `ceil(n·(1−p)) = 6`; the code
clips to the sorted entries at indices `2` and `min(6, 7) = 6` (bounds
`3` and `7`), whereas the claimed indices `floor(n·p)` and
`ceil(n·(1−p)) − 1 = 5` would clip to bounds `3` and `6`: the outputs
differ in the last two entries. -/
theorem claim_C1_counterexample :
    BookToPrice.winsorize ⟨true, 1 / 4⟩
        [Fl.fin 1, Fl.fin 2, Fl.fin 3, Fl.fin 4, Fl.fin 5, Fl.fin 6, Fl.fin 7, Fl.fin 8] =
      [Fl.fin 3, Fl.fin 3, Fl.fin 3, Fl.fin 4, Fl.fin 5, Fl.fin 6, Fl.fin 7, Fl.fin 7] ∧
    winsorizeSpecC1 ⟨true, 1 / 4⟩
        [Fl.fin 1, Fl.fin 2, Fl.fin 3, Fl.fin 4, Fl.fin 5, Fl.fin 6, Fl.fin 7, Fl.fin 8] =
      [Fl.fin 3, Fl.fin 3, Fl.fin 3, Fl.fin 4, Fl.fin 5, Fl.fin 6, Fl.fin 6, Fl.fin 6] ∧
    BookToPrice.winsorize ⟨true, 1 / 4⟩
        [Fl.fin 1, Fl.fin 2, Fl.fin 3, Fl.fin 4, Fl.fin 5, Fl.fin 6, Fl.fin 7, Fl.fin 8] ≠
      winsorizeSpecC1 ⟨true, 1 / 4⟩
        [Fl.fin 1, Fl.fin 2, Fl.fin 3, Fl.fin 4, Fl.fin 5, Fl.fin 6, Fl.fin 7, Fl.fin 8] := by
  have hcode : BookToPrice.winsorize ⟨true, 1 / 4⟩
      [Fl.fin 1, Fl.fin 2, Fl.fin 3, Fl.fin 4, Fl.fin 5, Fl.fin 6, Fl.fin 7, Fl.fin 8] =
      [Fl.fin 3, Fl.fin 3, Fl.fin 3, Fl.fin 4, Fl.fin 5, Fl.fin 6, Fl.fin 7, Fl.fin 7] := by
    norm_num [BookToPrice.winsorize, finiteVals, List.filterMap, Fl.isFinite, Fl.toVal,
      List.insertionSort, List.orderedInsert, show Int.toNat 2 = 2 from rfl,
      show Int.toNat 6 = 6 from rfl, List.getD]
  have hspec : winsorizeSpecC1 ⟨true, 1 / 4⟩
      [Fl.fin 1, Fl.fin 2, Fl.fin 3, Fl.fin 4, Fl.fin 5, Fl.fin 6, Fl.fin 7, Fl.fin 8] =
      [Fl.fin 3, Fl.fin 3, Fl.fin 3, Fl.fin 4, Fl.fin 5, Fl.fin 6, Fl.fin 6, Fl.fin 6] := by
    norm_num [winsorizeSpecC1, finiteVals, List.filterMap, Fl.isFinite, Fl.toVal,
      List.insertionSort, List.orderedInsert, show Int.toNat 2 = 2 from rfl,
      show Int.toNat 5 = 5 from rfl, List.getD]
  refine ⟨hcode, hspec, ?_⟩
  rw [hcode, hspec]
  simp only [ne_eq, List.cons.injEq, Fl.fin.injEq]
  norm_num

/-- claim C1, witness: the amended clamping description instantiated on
three finite values at `p = 1/4`. -/
theorem claim_C1_witness :
    finiteVals [Fl.fin 1, Fl.fin 5, Fl.fin 2] ≠ [] ∧
    ((BookToPrice.winsorize ⟨true, 1 / 4⟩ [Fl.fin 1, Fl.fin 5, Fl.fin 2]).length =
        ([Fl.fin 1, Fl.fin 5, Fl.fin 2] : List F).length ∧
      ∀ (i : ℕ) (x : F), ([Fl.fin 1, Fl.fin 5, Fl.fin 2] : List F)[i]? = some x →
        (BookToPrice.winsorize ⟨true, 1 / 4⟩ [Fl.fin 1, Fl.fin 5, Fl.fin 2])[i]? = some
          (if x.isFinite then
            Fl.fin (max (winsorLB [Fl.fin 1, Fl.fin 5, Fl.fin 2] (1 / 4))
              (min (winsorUB [Fl.fin 1, Fl.fin 5, Fl.fin 2] (1 / 4)) x.toVal))
          else x)) :=
  ⟨by simp [finiteVals, List.filterMap, Fl.isFinite, Fl.toVal],
    claim_C1_winsorize_clamps ⟨true, 1 / 4⟩ [Fl.fin 1, Fl.fin 5, Fl.fin 2] rfl
      (by norm_num) (by norm_num)
      (by simp [finiteVals, List.filterMap, Fl.isFinite, Fl.toVal])⟩

/-! ## Claim C8: Spearman IC of a vector with itself and with its reversal -/

theorem EPSILON_pos : (0 : ℚ) < EPSILON := by norm_num [EPSILON]

instance : IsTrans ℚ (fun a b => a + EPSILON ≤ b) :=
  ⟨fun _ _ _ h1 h2 => by have := EPSILON_pos; linarith⟩

instance : IsAntisymm (ℕ × ℚ) (fun a b => a.2 < b.2) :=
  ⟨fun _ _ h h' => ((lt_asymm h) h').elim⟩

/-- The second components of an enumeration are members of the list. -/
theorem snd_mem_of_mem_enumFrom :
    ∀ (l : List ℚ) (k : ℕ) (p : ℕ × ℚ), p ∈ List.enumFrom k l → p.2 ∈ l := by
  intro l
  induction l with
  | nil => intro k p hp; simp [List.enumFrom] at hp
  | cons v rest ih =>
      intro k p hp
      rcases hp with _ | ⟨_, hp⟩
      · exact List.mem_cons_self _ _
      · exact List.mem_cons_of_mem _ (ih (k + 1) _ hp)

/-- Pairwise relations on values lift to enumerations. -/
theorem pairwise_enumFrom {R : ℚ → ℚ → Prop} :
    ∀ (l : List ℚ) (k : ℕ), l.Pairwise R →
      (List.enumFrom k l).Pairwise (fun a b => R a.2 b.2) := by
  intro l
  induction l with
  | nil => intro k _; simp [List.enumFrom]
  | cons v rest ih =>
      intro k hp
      rcases List.pairwise_cons.mp hp with ⟨hv, hrest⟩
      refine List.pairwise_cons.mpr ⟨?_, ih (k + 1) hrest⟩
      intro b hb
      exact hv b.2 (snd_mem_of_mem_enumFrom rest (k + 1) b hb)

/-- Under `EPSILON`-separation every tie group in `assignRanks` is a
singleton, and the rank assigned to the `k`-th sorted element is `k`. -/
theorem assignRanks_sep :
    ∀ (l : List (ℕ × ℚ)), List.Chain' (fun a b : ℕ × ℚ => a.2 + EPSILON ≤ b.2) l →
      ∀ (i fuel : ℕ), l.length ≤ fuel →
        assignRanks fuel l i =
          (List.enumFrom i l).map (fun q => (q.2.1, (q.1 : ℚ))) := by
  intro l
  induction l with
  | nil =>
      intro _ i fuel _
      cases fuel with
      | zero => rfl
      | succ f => rfl
  | cons p rest ih =>
      intro hch i fuel hlen
      cases fuel with
      | zero => simp at hlen
      | succ f =>
          have hgrp : rest.takeWhile (fun q => decide (|q.2 - p.2| < EPSILON)) = [] := by
            cases rest with
            | nil => rfl
            | cons q rest' =>
                have hsep : p.2 + EPSILON ≤ q.2 := (List.chain'_cons.mp hch).1
                apply List.takeWhile_cons_of_neg
                simp only [decide_eq_true_eq, not_lt]
                have hnn : 0 ≤ q.2 - p.2 := by have := EPSILON_pos; linarith
                rw [abs_of_nonneg hnn]
                linarith
          have havg : ((i + (i + (0 + 1)) - 1 : ℕ) : ℚ) / 2 = (i : ℚ) := by
            have h1 : (i + (i + (0 + 1)) - 1 : ℕ) = 2 * i := by omega
            rw [h1]
            push_cast
            ring
          simp only [assignRanks, hgrp, List.length_nil, List.drop_zero, List.map_cons,
            List.map_nil, List.nil_append, List.singleton_append, List.enumFrom, havg]
          exact congrArg _ (ih hch.tail (i + 1) f (by simpa using hlen))

instance : IsTotal (ℕ × ℚ) (fun a b => a.2 ≤ b.2) :=
  ⟨fun a b => le_total a.2 b.2⟩

instance : IsTrans (ℕ × ℚ) (fun a b => a.2 ≤ b.2) :=
  ⟨fun _ _ _ h1 h2 => le_trans h1 h2⟩

/-- Rank assignment along the enumeration of an already-enumerated list:
the `j`-th sorted element keeps original index `j` and gets rank `j`. -/
theorem map_rank_enum_range (n : ℕ) (vs : List ℚ) (hn : vs.length = n) :
    (List.enumFrom 0 vs.enum).map (fun q => (q.2.1, (q.1 : ℚ)))
      = (List.range n).map (fun j : ℕ => ((j, (j : ℚ)) : ℕ × ℚ)) := by
  apply List.ext_getElem
  · simp [hn]
  · intro i h1 h2
    simp only [List.getElem_map, List.getElem_enumFrom, List.getElem_enum,
      List.getElem_range, Nat.zero_add]

/-- Rank assignment along the reversed enumeration of the reversed list:
the `j`-th sorted element has original index `n − 1 − j` and gets rank `j`. -/
theorem map_rank_enum_reverse (n : ℕ) (vs : List ℚ) (hn : vs.length = n) :
    (List.enumFrom 0 ((vs.reverse.enum).reverse)).map (fun q => (q.2.1, (q.1 : ℚ)))
      = (List.range n).map (fun j => (n - 1 - j, (j : ℚ))) := by
  apply List.ext_getElem
  · simp [hn]
  · intro i h1 h2
    simp only [List.getElem_map, List.getElem_enumFrom, List.getElem_reverse,
      List.getElem_enum, List.getElem_range, Nat.zero_add, List.enum_length,
      List.length_reverse, hn]

/-- The enumeration of a `≤`-sorted list is already sorted by value, so the
stable sort in `compute_ranks` leaves it unchanged. -/
theorem insertionSort_enum_of_sorted (vs : List ℚ) (hp : vs.Pairwise (· ≤ ·)) :
    vs.enum.insertionSort (fun a b => a.2 ≤ b.2) = vs.enum :=
  List.Sorted.insertionSort_eq (pairwise_enumFrom vs 0 hp)

/-- Sorting the enumeration of the reversal of a strictly increasing list
by value reverses it. -/
theorem insertionSort_enum_reverse (vs : List ℚ) (hlt : vs.Pairwise (· < ·)) :
    vs.reverse.enum.insertionSort (fun a b => a.2 ≤ b.2) = (vs.reverse.enum).reverse := by
  have hgt : vs.reverse.Pairwise (fun a b => b < a) :=
    List.pairwise_reverse.mpr hlt
  have hne : vs.reverse.enum.Pairwise (fun a b : ℕ × ℚ => a.2 ≠ b.2) :=
    pairwise_enumFrom vs.reverse 0 (hgt.imp (fun h => h.ne'))
  have hperm₁ :
      (vs.reverse.enum.insertionSort (fun a b => a.2 ≤ b.2)).Perm vs.reverse.enum :=
    List.perm_insertionSort _ _
  have hsorted_out :
      List.Sorted (fun a b : ℕ × ℚ => a.2 < b.2)
        (vs.reverse.enum.insertionSort (fun a b => a.2 ≤ b.2)) := by
    have hle := List.sorted_insertionSort (fun a b : ℕ × ℚ => a.2 ≤ b.2) vs.reverse.enum
    have hne' : (vs.reverse.enum.insertionSort (fun a b => a.2 ≤ b.2)).Pairwise
        (fun a b : ℕ × ℚ => a.2 ≠ b.2) :=
      (hperm₁.pairwise_iff (fun h => Ne.symm h)).mpr hne
    exact (hle.and hne').imp (fun h => lt_of_le_of_ne h.1 h.2)
  have hsorted_tgt :
      List.Sorted (fun a b : ℕ × ℚ => a.2 < b.2) ((vs.reverse.enum).reverse) := by
    refine List.pairwise_reverse.mpr ?_
    exact pairwise_enumFrom vs.reverse 0 hgt
  exact List.eq_of_perm_of_sorted (hperm₁.trans (List.reverse_perm _).symm)
    hsorted_out hsorted_tgt

/-- Writing a family of values into distinct positions: the position of a
member receives its value. -/
theorem getElem?_foldl_set_of_mem (w : ℕ × ℚ → ℚ) :
    ∀ (l : List (ℕ × ℚ)) (v : List ℚ) (p : ℕ × ℚ), p ∈ l → (l.map Prod.fst).Nodup →
      p.1 < v.length →
      (l.foldl (fun ps q => ps.set q.1 (w q)) v)[p.1]? = some (w p) := by
  intro l
  induction l with
  | nil => intro v p hp _ _; simp at hp
  | cons q rest ih =>
      intro v p hp hnd hlt
      simp only [List.map_cons, List.nodup_cons] at hnd
      simp only [List.foldl_cons]
      rcases List.mem_cons.mp hp with rfl | hp'
      · rw [getElem?_foldl_set_of_not_mem w rest (v.set p.1 (w p)) p.1 hnd.1]
        exact List.getElem?_set_self (by simpa using hlt)
      · exact ih (v.set q.1 (w q)) p hp' hnd.2 (by simpa using hlt)

/-- Writing ranks `j` at positions `j` over a zero vector of length `n`
yields `[0, 1, …, n−1]`. -/
theorem foldl_set_range_id (n : ℕ) :
    ((List.range n).map (fun j : ℕ => ((j, (j : ℚ)) : ℕ × ℚ))).foldl
        (fun ranks p => ranks.set p.1 p.2) (List.replicate n 0)
      = (List.range n).map (fun j : ℕ => (j : ℚ)) := by
  have hnd : (((List.range n).map (fun j : ℕ => ((j, (j : ℚ)) : ℕ × ℚ))).map
      Prod.fst).Nodup := by
    rw [List.map_map]
    have hid : (Prod.fst ∘ fun j : ℕ => ((j, (j : ℚ)) : ℕ × ℚ)) = id :=
      funext fun _ => rfl
    rw [hid, List.map_id]
    exact List.nodup_range n
  have h1 : (((List.range n).map (fun j : ℕ => ((j, (j : ℚ)) : ℕ × ℚ))).foldl
      (fun ranks p => ranks.set p.1 p.2) (List.replicate n 0)).length = n := by
    rw [length_foldl_set Prod.snd]
    simp
  apply List.ext_getElem?
  intro i
  by_cases hi : i < n
  · rw [getElem?_foldl_set_of_mem Prod.snd _ _ (i, (i : ℚ))
      (List.mem_map.mpr ⟨i, List.mem_range.mpr hi, rfl⟩) hnd
      (by simpa using hi)]
    rw [List.getElem?_map, List.getElem?_range hi]
    rfl
  · rw [List.getElem?_eq_none (by rw [h1]; omega),
      List.getElem?_eq_none (by simp; omega)]

/-- Writing ranks `j` at positions `n − 1 − j` over a zero vector of
length `n` yields `[n−1, n−2, …, 0]`. -/
theorem foldl_set_range_rev (n : ℕ) :
    ((List.range n).map (fun j : ℕ => ((n - 1 - j, (j : ℚ)) : ℕ × ℚ))).foldl
        (fun ranks p => ranks.set p.1 p.2) (List.replicate n 0)
      = (List.range n).map (fun i : ℕ => ((n - 1 - i : ℕ) : ℚ)) := by
  have hnd : (((List.range n).map (fun j : ℕ => ((n - 1 - j, (j : ℚ)) : ℕ × ℚ))).map
      Prod.fst).Nodup := by
    rw [List.map_map]
    refine List.Nodup.map_on ?_ (List.nodup_range n)
    intro x hx y hy hxy
    rw [List.mem_range] at hx hy
    simp only [Function.comp_apply] at hxy
    omega
  have h1 : (((List.range n).map (fun j : ℕ => ((n - 1 - j, (j : ℚ)) : ℕ × ℚ))).foldl
      (fun ranks p => ranks.set p.1 p.2) (List.replicate n 0)).length = n := by
    rw [length_foldl_set Prod.snd]
    simp
  apply List.ext_getElem?
  intro i
  by_cases hi : i < n
  · have hmem : ((i, ((n - 1 - i : ℕ) : ℚ)) : ℕ × ℚ) ∈
        (List.range n).map (fun j : ℕ => ((n - 1 - j, (j : ℚ)) : ℕ × ℚ)) := by
      refine List.mem_map.mpr ⟨n - 1 - i, List.mem_range.mpr (by omega), ?_⟩
      have : n - 1 - (n - 1 - i) = i := by omega
      rw [this]
    rw [show (i : ℕ) = ((i, ((n - 1 - i : ℕ) : ℚ)) : ℕ × ℚ).1 from rfl,
      getElem?_foldl_set_of_mem Prod.snd _ _ _ hmem hnd (by simpa using hi)]
    rw [List.getElem?_map, List.getElem?_range hi]
    rfl
  · rw [List.getElem?_eq_none (by rw [h1]; omega),
      List.getElem?_eq_none (by simp; omega)]

/-- `compute_ranks` on an `EPSILON`-separated increasing vector is the
identity ranking `[0, 1, …, n−1]`. -/
theorem compute_ranks_sep (vs : List ℚ)
    (hsep : List.Chain' (fun a b => a + EPSILON ≤ b) vs) :
    compute_ranks vs = (List.range vs.length).map (fun j : ℕ => (j : ℚ)) := by
  have hpsep : vs.Pairwise (fun a b => a + EPSILON ≤ b) :=
    List.chain'_iff_pairwise.mp hsep
  have hple : vs.Pairwise (· ≤ ·) :=
    hpsep.imp (fun h => by have := EPSILON_pos; linarith)
  have hchain : List.Chain' (fun a b : ℕ × ℚ => a.2 + EPSILON ≤ b.2) vs.enum :=
    (pairwise_enumFrom vs 0 hpsep).chain'
  simp only [compute_ranks]
  rw [insertionSort_enum_of_sorted vs hple,
    assignRanks_sep vs.enum hchain 0 vs.enum.length (le_refl _),
    map_rank_enum_range vs.length vs rfl, foldl_set_range_id]

/-- `compute_ranks` on the reversal of an `EPSILON`-separated increasing
vector is the reversed ranking `[n−1, n−2, …, 0]`. -/
theorem compute_ranks_sep_rev (vs : List ℚ)
    (hsep : List.Chain' (fun a b => a + EPSILON ≤ b) vs) :
    compute_ranks vs.reverse =
      (List.range vs.length).map (fun i : ℕ => ((vs.length - 1 - i : ℕ) : ℚ)) := by
  have hpsep : vs.Pairwise (fun a b => a + EPSILON ≤ b) :=
    List.chain'_iff_pairwise.mp hsep
  have hplt : vs.Pairwise (· < ·) :=
    hpsep.imp (fun h => by have := EPSILON_pos; linarith)
  have hgtsep : vs.reverse.Pairwise (fun a b => b + EPSILON ≤ a) :=
    List.pairwise_reverse.mpr hpsep
  have hchain : List.Chain' (fun a b : ℕ × ℚ => a.2 + EPSILON ≤ b.2)
      ((vs.reverse.enum).reverse) :=
    (List.pairwise_reverse.mpr (pairwise_enumFrom vs.reverse 0 hgtsep)).chain'
  simp only [compute_ranks]
  rw [insertionSort_enum_reverse vs hplt,
    assignRanks_sep ((vs.reverse.enum).reverse) hchain 0 _ (le_refl _),
    map_rank_enum_reverse vs.length vs rfl]
  rw [show vs.reverse.length = vs.length from List.length_reverse vs]
  rw [foldl_set_range_rev]

theorem sum_map_neg_fn (l : List ℚ) (g : ℚ → ℚ) :
    (l.map (fun a => -(g a))).sum = -((l.map g).sum) := by
  induction l with
  | nil => simp
  | cons x xs ih => simp only [List.map_cons, List.sum_cons, ih]; ring

theorem sum_map_sub_const (l : List ℚ) (c : ℚ) :
    (l.map (fun q => c - q)).sum = l.length * c - l.sum := by
  induction l with
  | nil => simp
  | cons x xs ih =>
      simp only [List.map_cons, List.sum_cons, List.length_cons, ih]
      push_cast
      ring

/-- Spearman correlation of a rank vector with itself is `1` whenever the
centered square sum is positive. -/
theorem spearman_self (u : List ℚ) (h2 : 2 ≤ u.length)
    (hS : 0 < (u.map (fun x => (x - spearmanMeanX u) ^ 2)).sum) :
    spearman_correlation u u = Fl.fin 1 := by
  have hvx : spearmanVarX u u = (u.map (fun x => (x - spearmanMeanX u) ^ 2)).sum := by
    unfold spearmanVarX
    rw [List.zipWith_same]
  have hvy : spearmanVarY u u = (u.map (fun x => (x - spearmanMeanX u) ^ 2)).sum := by
    unfold spearmanVarY spearmanMeanY spearmanMeanX
    rw [List.zipWith_same]
  have hcov : spearmanCov u u = (u.map (fun x => (x - spearmanMeanX u) ^ 2)).sum := by
    unfold spearmanCov spearmanMeanY spearmanMeanX
    rw [List.zipWith_same]
    have hfn : (fun a => (a - u.sum / (u.length : ℚ)) * (a - u.sum / (u.length : ℚ)))
        = fun x => (x - u.sum / (u.length : ℚ)) ^ 2 := by
      funext a
      ring
    rw [hfn]
  unfold spearman_correlation
  rw [if_neg (by omega), if_neg (by rw [hvx, hvy]; push_neg; constructor <;> positivity)]
  rw [hcov, hvx, hvy]
  have hS' : (0 : ℝ) < ((u.map (fun x => (x - spearmanMeanX u) ^ 2)).sum : ℚ) := by
    exact_mod_cast hS
  rw [Real.mul_self_sqrt hS'.le, div_self (ne_of_gt hS')]

/-- Spearman correlation of a rank vector with its order-reversing affine
image `c − x` is `−1` whenever the centered square sum is positive. -/
theorem spearman_affine_neg (u : List ℚ) (c : ℚ) (h2 : 2 ≤ u.length)
    (hS : 0 < (u.map (fun x => (x - spearmanMeanX u) ^ 2)).sum) :
    spearman_correlation u (u.map (fun q => c - q)) = Fl.fin (-1) := by
  have hn0 : ((u.length : ℚ)) ≠ 0 := Nat.cast_ne_zero.mpr (by omega)
  have hmy : spearmanMeanY u (u.map (fun q => c - q)) = c - spearmanMeanX u := by
    unfold spearmanMeanY spearmanMeanX
    rw [sum_map_sub_const]
    field_simp
    ring
  have hvy : spearmanVarY u (u.map (fun q => c - q))
      = (u.map (fun x => (x - spearmanMeanX u) ^ 2)).sum := by
    unfold spearmanVarY
    rw [List.zipWith_map_right, List.zipWith_same, hmy]
    have hfn : (fun a => ((c - a) - (c - spearmanMeanX u)) ^ 2)
        = fun x => (x - spearmanMeanX u) ^ 2 := by
      funext a
      ring
    rw [hfn]
  have hvx : spearmanVarX u (u.map (fun q => c - q))
      = (u.map (fun x => (x - spearmanMeanX u) ^ 2)).sum := by
    unfold spearmanVarX
    rw [List.zipWith_map_right, List.zipWith_same]
  have hcov : spearmanCov u (u.map (fun q => c - q))
      = -((u.map (fun x => (x - spearmanMeanX u) ^ 2)).sum) := by
    unfold spearmanCov
    rw [List.zipWith_map_right, List.zipWith_same, hmy]
    have hfn : (fun a => (a - spearmanMeanX u) * ((c - a) - (c - spearmanMeanX u)))
        = fun a => -((a - spearmanMeanX u) ^ 2) := by
      funext a
      ring
    rw [hfn, sum_map_neg_fn]
  unfold spearman_correlation
  rw [if_neg (by omega), if_neg (by rw [hvx, hvy]; push_neg; constructor <;> positivity)]
  rw [hcov, hvx, hvy]
  have hS' : (0 : ℝ) < ((u.map (fun x => (x - spearmanMeanX u) ^ 2)).sum : ℚ) := by
    exact_mod_cast hS
  rw [Real.mul_self_sqrt hS'.le, Rat.cast_neg, neg_div, div_self (ne_of_gt hS')]

/-- The centered square sum of the rank vector `[0, …, n−1]` is positive
for `n ≥ 2`, whatever the centering constant. -/
theorem sumsq_range_pos (n : ℕ) (h2 : 2 ≤ n) (μ : ℚ) :
    0 < (((List.range n).map (fun j : ℕ => (j : ℚ))).map (fun x => (x - μ) ^ 2)).sum := by
  obtain ⟨m, rfl⟩ : ∃ m, n = m + 2 := ⟨n - 2, by omega⟩
  rw [List.range_succ_eq_map, List.range_succ_eq_map]
  simp only [List.map_cons, List.map_map, List.sum_cons, Nat.cast_zero, Nat.cast_succ]
  have hrest : 0 ≤ (((List.range m).map
      ((fun x => (x - μ) ^ 2) ∘ (fun j : ℕ => (j : ℚ)) ∘ Nat.succ ∘ Nat.succ)).sum) := by
    apply List.sum_nonneg
    intro x hx
    rcases List.mem_map.mp hx with ⟨j, _, rfl⟩
    simp only [Function.comp_apply]
    positivity
  nlinarith [sq_nonneg (2 * μ - 1), hrest]

/-- With all-finite inputs the valid-pair filter of `calculate_ic` keeps
every zipped pair. -/
theorem filterMap_zip_map_fin :
    ∀ (vs ws : List ℚ),
      ((vs.map Fl.fin).zip (ws.map Fl.fin)).filterMap
        (fun p => if p.1.isFinite && p.2.isFinite then some (p.1.toVal, p.2.toVal)
          else none)
      = vs.zip ws := by
  intro vs
  induction vs with
  | nil => intro ws; rfl
  | cons v vs ih =>
      intro ws
      cases ws with
      | nil => rfl
      | cons w ws =>
          simp only [List.map_cons, List.zip_cons_cons]
          exact congrArg (List.cons (v, w)) (ih ws)

/-- The reversed identity ranking as an affine image of the identity
ranking. -/
theorem range_cast_rev_eq_map (n : ℕ) :
    (List.range n).map (fun i : ℕ => ((n - 1 - i : ℕ) : ℚ))
      = ((List.range n).map (fun j : ℕ => (j : ℚ))).map
          (fun q => ((n : ℚ) - 1) - q) := by
  rw [List.map_map]
  apply List.map_congr_left
  intro i hi
  rw [List.mem_range] at hi
  simp only [Function.comp_apply]
  rw [Nat.cast_sub (by omega : i ≤ n - 1), Nat.cast_sub (by omega : 1 ≤ n)]
  push_cast
  ring

/-- claim C8 (amended): for a vector of at least two finite values that is
strictly increasing with consecutive gaps of at least `f64::EPSILON` — so
the tie threshold of `compute_ranks` groups nothing — the Spearman IC of
the vector with itself is `1` and with its reversal is `−1`.  Mere
non-constancy is not enough: see the counterexample. -/
theorem claim_C8_ic_self_and_reverse (vs : List ℚ)
    (h2 : 2 ≤ vs.length)
    (hsep : List.Chain' (fun a b => a + EPSILON ≤ b) vs) :
    calculate_ic (vs.map Fl.fin) (vs.map Fl.fin) = Fl.fin 1 ∧
    calculate_ic (vs.map Fl.fin) ((vs.map Fl.fin).reverse) = Fl.fin (-1) := by
  have hrx := compute_ranks_sep vs hsep
  have h2' : 2 ≤ ((List.range vs.length).map (fun j : ℕ => (j : ℚ))).length := by
    simpa using h2
  have hS := sumsq_range_pos vs.length h2
    (spearmanMeanX ((List.range vs.length).map (fun j : ℕ => (j : ℚ))))
  constructor
  · simp only [calculate_ic]
    rw [if_neg (show ¬ ((vs.map Fl.fin).length ≠ (vs.map Fl.fin).length) from by simp)]
    rw [if_neg (show ¬ ((vs.map Fl.fin).length < 2) from by
      rw [List.length_map]; omega)]
    rw [filterMap_zip_map_fin vs vs]
    rw [if_neg (show ¬ ((vs.zip vs).length < 2) from by
      rw [List.length_zip]; omega)]
    rw [List.map_fst_zip vs vs (le_refl _), List.map_snd_zip vs vs (le_refl _), hrx]
    exact spearman_self _ h2' hS
  · rw [← List.map_reverse]
    simp only [calculate_ic]
    rw [if_neg (show ¬ ((vs.map Fl.fin).length ≠ (vs.reverse.map Fl.fin).length) from by
      simp)]
    rw [if_neg (show ¬ ((vs.map Fl.fin).length < 2) from by
      rw [List.length_map]; omega)]
    rw [filterMap_zip_map_fin vs vs.reverse]
    rw [if_neg (show ¬ ((vs.zip vs.reverse).length < 2) from by
      rw [List.length_zip, List.length_reverse]; omega)]
    rw [List.map_fst_zip vs vs.reverse (by rw [List.length_reverse]),
      List.map_snd_zip vs vs.reverse (by rw [List.length_reverse]), hrx,
      compute_ranks_sep_rev vs hsep, range_cast_rev_eq_map]
    exact spearman_affine_neg _ ((vs.length : ℚ) - 1) h2' hS

/-- claim C8, counterexample: `x = [1, 3, 2]` is finite, non-constant and
has at least 2 entries, yet `calculate_ic(x, reverse(x))` is `1/2`, not
`−1`: reversal permutes the entries, it does not reverse their order
statistics unless the vector is monotone. -/
theorem claim_C8_counterexample :
    Fl.fin (1 : ℚ) ∈ ([Fl.fin 1, Fl.fin 3, Fl.fin 2] : List F) ∧
    Fl.fin (3 : ℚ) ∈ ([Fl.fin 1, Fl.fin 3, Fl.fin 2] : List F) ∧
    Fl.fin (1 : ℚ) ≠ Fl.fin (3 : ℚ) ∧
    (∀ x ∈ ([Fl.fin 1, Fl.fin 3, Fl.fin 2] : List F), x.isFinite = true) ∧
    calculate_ic [Fl.fin 1, Fl.fin 3, Fl.fin 2]
        (([Fl.fin 1, Fl.fin 3, Fl.fin 2] : List F).reverse) = Fl.fin (1 / 2) ∧
    (Fl.fin (1 / 2) : Fl ℝ) ≠ Fl.fin (-1) := by
  have hranks_x : compute_ranks [1, 3, 2] = [0, 2, 1] := by
    norm_num [compute_ranks, assignRanks, EPSILON, List.insertionSort,
      List.orderedInsert, List.enum, List.enumFrom, List.takeWhile, List.foldl,
      List.replicate, List.set]
  have hranks_y : compute_ranks [2, 3, 1] = [1, 2, 0] := by
    norm_num [compute_ranks, assignRanks, EPSILON, List.insertionSort,
      List.orderedInsert, List.enum, List.enumFrom, List.takeWhile, List.foldl,
      List.replicate, List.set]
  have hsp : spearman_correlation [0, 2, 1] [1, 2, 0] = Fl.fin (1 / 2) := by
    have hvx : spearmanVarX [0, 2, 1] [1, 2, 0] = 2 := by
      norm_num [spearmanVarX, spearmanMeanX, List.zipWith]
    have hvy : spearmanVarY [0, 2, 1] [1, 2, 0] = 2 := by
      norm_num [spearmanVarY, spearmanMeanY, List.zipWith]
    have hcov : spearmanCov [0, 2, 1] [1, 2, 0] = 1 := by
      norm_num [spearmanCov, spearmanMeanX, spearmanMeanY, List.zipWith]
    unfold spearman_correlation
    rw [if_neg (by norm_num), if_neg (by rw [hvx, hvy]; norm_num), hvx, hvy, hcov]
    congr 1
    rw [show ((2 : ℚ) : ℝ) = 2 from by norm_num,
      Real.mul_self_sqrt (by norm_num : (0 : ℝ) ≤ 2)]
    norm_num
  have hic : calculate_ic [Fl.fin 1, Fl.fin 3, Fl.fin 2] [Fl.fin 2, Fl.fin 3, Fl.fin 1]
      = spearman_correlation [0, 2, 1] [1, 2, 0] := by
    simp only [calculate_ic]
    rw [if_neg (by norm_num), if_neg (by norm_num)]
    rw [show (([Fl.fin 1, Fl.fin 3, Fl.fin 2] : List F).zip
        ([Fl.fin 2, Fl.fin 3, Fl.fin 1] : List F)).filterMap
        (fun p => if p.1.isFinite && p.2.isFinite then some (p.1.toVal, p.2.toVal)
          else none)
        = [((1 : ℚ), (2 : ℚ)), (3, 3), (2, 1)] from rfl]
    rw [if_neg (by norm_num)]
    rw [show ([((1 : ℚ), (2 : ℚ)), (3, 3), (2, 1)].map Prod.fst) = [1, 3, 2] from rfl,
      show ([((1 : ℚ), (2 : ℚ)), (3, 3), (2, 1)].map Prod.snd) = [2, 3, 1] from rfl,
      hranks_x, hranks_y]
  refine ⟨by simp, by simp, ?_, by simp [Fl.isFinite], ?_, ?_⟩
  · simp only [ne_eq, Fl.fin.injEq]
    norm_num
  · rw [show (([Fl.fin 1, Fl.fin 3, Fl.fin 2] : List F).reverse)
      = [Fl.fin 2, Fl.fin 3, Fl.fin 1] from rfl, hic, hsp]
  · simp only [ne_eq, Fl.fin.injEq]
    norm_num

/-- claim C8, witness: the amended theorem applied to `[0, 1, 2]`. -/
theorem claim_C8_witness :
    2 ≤ ([(0 : ℚ), 1, 2] : List ℚ).length ∧
    List.Chain' (fun a b => a + EPSILON ≤ b) [(0 : ℚ), 1, 2] ∧
    (calculate_ic ([(0 : ℚ), 1, 2].map Fl.fin) ([(0 : ℚ), 1, 2].map Fl.fin)
        = Fl.fin 1 ∧
      calculate_ic ([(0 : ℚ), 1, 2].map Fl.fin) (([(0 : ℚ), 1, 2].map Fl.fin).reverse)
        = Fl.fin (-1)) :=
  ⟨by norm_num,
    by norm_num [List.chain'_cons, List.chain'_singleton, EPSILON],
    claim_C8_ic_self_and_reverse [0, 1, 2] (by norm_num)
      (by norm_num [List.chain'_cons, List.chain'_singleton, EPSILON])⟩

end Tarifa
